import Mathlib

/-!
# next-rest client: URL construction and response handling

A shallow embedding of `src/client/index.js`.

* JavaScript strings are sequences of UTF-16 code units; a code unit is a natural number
  below `2 ^ 16`.
* A thrown exception (or a rejected promise) is the `Except.error` case of the result.
* Regular expressions are kept as syntax trees and run by a backtracking matcher that
  returns the successful end states in the order in which a backtracking engine tries them.
* The parameter object is a list of key/value pairs: the properties that a lookup on the
  object can see. Its values are strings, arrays of strings, `undefined`, `null`, booleans,
  or any other value given by the string it converts to.
-/

namespace NextRest

/-! ## Strings -/

/-- A JavaScript string: the list of its UTF-16 code units. -/
abbrev JSString := List Nat

/-- UTF-16 code units of one Unicode scalar value. -/
def utf16 (n : Nat) : List Nat :=
  if n < 0x10000 then [n]
  else [0xD800 + (n - 0x10000) / 0x400, 0xDC00 + (n - 0x10000) % 0x400]

/-- UTF-16 code units of a list of characters. -/
def jsChars : List Char → JSString
  | [] => []
  | c :: cs => utf16 c.toNat ++ jsChars cs

/-- The JavaScript string written as the given literal. -/
def js (s : String) : JSString := jsChars s.toList

/-- The method `Array.prototype.join` on an array of strings. -/
def join (sep : JSString) : List JSString → JSString
  | [] => []
  | [a] => a
  | a :: b :: rest => a ++ sep ++ join sep (b :: rest)

/-- The method `String.prototype.split` with a separator of one code unit. -/
def split (sep : Nat) : JSString → List JSString
  | [] => [[]]
  | c :: cs =>
    if c = sep then [] :: split sep cs
    else
      match split sep cs with
      | [] => [[c]]
      | h :: t => (c :: h) :: t

/-! ## Values and errors -/

/-- The JavaScript values a parameter object may hold. -/
inductive JSValue where
  | undefined
  | null
  | bool (b : Bool)
  | str (s : JSString)
  /-- An array of strings. -/
  | arr (vs : List JSString)
  /-- Any other value (a number, a function, a plain object), which is neither a string nor
  an array; it is given by the string it converts to. -/
  | other (toStr : JSString)
  deriving DecidableEq, Repr

/-- Thrown values. -/
inductive JSError where
  /-- Thrown by `new Error(message)`. -/
  | error (message : JSString)
  /-- The `URIError` of `encodeURIComponent` on a string with an unpaired surrogate. -/
  | uriError
  /-- A `TypeError` of the language (destructuring `null`, calling a method of `undefined`). -/
  | typeError
  /-- Thrown by `new ClientError(status, message)`. -/
  | clientError (status : Nat) (message : JSString)
  /-- An exception of `JSON.stringify`, or a rejection of the transport or of the body
  decoder, given by its reason. -/
  | rejected (reason : JSString)
  deriving DecidableEq, Repr

/-- Equality of outcomes is decidable. -/
instance decEqExcept {ε α : Type} [DecidableEq ε] [DecidableEq α] : DecidableEq (Except ε α)
  | .ok a, .ok b =>
    if h : a = b then isTrue (by rw [h]) else isFalse (fun e => h (by cases e; rfl))
  | .error a, .error b =>
    if h : a = b then isTrue (by rw [h]) else isFalse (fun e => h (by cases e; rfl))
  | .ok _, .error _ => isFalse (fun e => by cases e)
  | .error _, .ok _ => isFalse (fun e => by cases e)

/-- The abstract operation `ToString` on the modelled values. -/
def JSValue.toJSString : JSValue → JSString
  | .undefined => js "undefined"
  | .null => js "null"
  | .bool true => js "true"
  | .bool false => js "false"
  | .str s => s
  | .arr vs => join (js ",") vs
  | .other toStr => toStr

/-- The parameter object: the properties that a lookup on it can see, the first entry of a
key being the one that is read. A key that is not listed reads as `undefined`. -/
abbrev Params := List (JSString × JSValue)

/-- The property read `params[key]`. -/
def Params.get : Params → JSString → JSValue
  | [], _ => .undefined
  | (k, v) :: rest, key => if k = key then v else Params.get rest key

/-- The test `key in params`. -/
def Params.has : Params → JSString → Bool
  | [], _ => false
  | (k, _) :: rest, key => if k = key then true else Params.has rest key

/-! ## encodeURIComponent -/

/-- Characters `encodeURIComponent` leaves unchanged: letters, digits and `- _ . ! ~ * ' ( )`. -/
def isUnreserved (c : Nat) : Bool :=
  (0x41 ≤ c && c ≤ 0x5A) || (0x61 ≤ c && c ≤ 0x7A) || (0x30 ≤ c && c ≤ 0x39) ||
  c = 0x2D || c = 0x5F || c = 0x2E || c = 0x21 || c = 0x7E || c = 0x2A || c = 0x27 ||
  c = 0x28 || c = 0x29

/-- One upper-case hexadecimal digit. -/
def hexDigit (n : Nat) : Nat := if n < 10 then 0x30 + n else 0x41 + (n - 10)

/-- A percent sign followed by the two hexadecimal digits of an octet. -/
def percentByte (b : Nat) : JSString := [0x25, hexDigit (b / 16 % 16), hexDigit (b % 16)]

/-- The octets of the UTF-8 encoding of a code point. -/
def utf8 (cp : Nat) : List Nat :=
  if cp < 0x80 then [cp]
  else if cp < 0x800 then [0xC0 + cp / 0x40, 0x80 + cp % 0x40]
  else if cp < 0x10000 then [0xE0 + cp / 0x1000, 0x80 + cp / 0x40 % 0x40, 0x80 + cp % 0x40]
  else [0xF0 + cp / 0x40000 % 8, 0x80 + cp / 0x1000 % 0x40, 0x80 + cp / 0x40 % 0x40,
        0x80 + cp % 0x40]

/-- The percent-encoding of a code point. -/
def percentEncode (cp : Nat) : JSString :=
  join [] ((utf8 cp).map percentByte)

/-- The global function `encodeURIComponent` on a string. -/
def encodeURIComponentStr : JSString → Except JSError JSString
  | [] => .ok []
  | [c] =>
    if isUnreserved c then .ok [c]
    else if c < 0xD800 ∨ (0xE000 ≤ c ∧ c < 0x10000) then .ok (percentEncode c)
    else .error .uriError
  | c :: d :: rest =>
    if isUnreserved c then
      (encodeURIComponentStr (d :: rest)).map (c :: ·)
    else if c < 0xD800 ∨ (0xE000 ≤ c ∧ c < 0x10000) then
      (encodeURIComponentStr (d :: rest)).map (percentEncode c ++ ·)
    else if 0xD800 ≤ c ∧ c < 0xDC00 ∧ 0xDC00 ≤ d ∧ d < 0xE000 then
      (encodeURIComponentStr rest).map
        (percentEncode (0x10000 + (c - 0xD800) * 0x400 + (d - 0xDC00)) ++ ·)
    else .error .uriError

/-- The global function `encodeURIComponent`: the argument is converted to a string first. -/
def encodeURIComponent (v : JSValue) : Except JSError JSString :=
  encodeURIComponentStr v.toJSString

/-! ## Regular expressions -/

/-- Syntax of the regular expressions used by the client (no flags are set). -/
inductive Regex where
  /-- One given code unit, such as an escaped bracket. -/
  | lit (c : Nat)
  /-- The dot: any code unit except a line terminator. -/
  | dot
  /-- A character class, given by its inclusive ranges. -/
  | cls (ranges : List (Nat × Nat))
  /-- The assertion written as a caret: start of input. -/
  | bol
  /-- The assertion written as a dollar sign: end of input. -/
  | eol
  /-- Concatenation. -/
  | seq (a b : Regex)
  /-- Greedy repetition, zero or more times. -/
  | star (r : Regex)
  /-- Greedy repetition, one or more times. -/
  | plus (r : Regex)
  /-- Capturing group number `i`. -/
  | group (i : Nat) (r : Regex)

/-- A position of the matcher: the input before it, the input after it, and the captures. -/
structure MState where
  pre : JSString
  rest : JSString
  caps : List (Nat × JSString)
  deriving DecidableEq, Repr

/-- Line terminators: LF, CR, U+2028 and U+2029. -/
def isLineTerminator (c : Nat) : Bool :=
  c = 0x0A || c = 0x0D || c = 0x2028 || c = 0x2029

/-- Membership in a character class. -/
def inRanges (ranges : List (Nat × Nat)) (c : Nat) : Bool :=
  ranges.any (fun r => r.1 ≤ c && c ≤ r.2)

/-- Consume one code unit satisfying `p`. -/
def stepChar (p : Nat → Bool) (s : MState) : List MState :=
  match s.rest with
  | [] => []
  | x :: xs => if p x then [{ s with pre := s.pre ++ [x], rest := xs }] else []

/-- Record a capture, replacing an earlier one of the same group. -/
def setCap (caps : List (Nat × JSString)) (i : Nat) (v : JSString) : List (Nat × JSString) :=
  (i, v) :: caps.filter (fun c => c.1 ≠ i)

/-- Greedy iteration of `step`: more iterations are tried before fewer, and an
iteration that consumes nothing is rejected. -/
def starLoop (step : MState → List MState) : Nat → MState → List MState
  | 0, s => [s]
  | fuel + 1, s =>
    ((step s).filter (fun t => t.rest.length < s.rest.length)).flatMap (starLoop step fuel)
      ++ [s]

/-- All ways to match `r` from a position, in backtracking order. -/
def Regex.run : Regex → MState → List MState
  | .lit c, s => stepChar (fun x => x = c) s
  | .dot, s => stepChar (fun x => !isLineTerminator x) s
  | .cls ranges, s => stepChar (inRanges ranges) s
  | .bol, s => if s.pre = [] then [s] else []
  | .eol, s => if s.rest = [] then [s] else []
  | .seq a b, s => (a.run s).flatMap b.run
  | .star r, s => starLoop r.run s.rest.length s
  | .plus r, s => (r.run s).flatMap (fun t => starLoop r.run t.rest.length t)
  | .group i r, s =>
    (r.run s).map (fun t => { t with caps := setCap t.caps i (t.pre.drop s.pre.length) })

/-- Try to match at the current position, then at each later one. -/
def Regex.execAt (r : Regex) : JSString → JSString → Option (List (Nat × JSString))
  | pre, [] =>
    match r.run ⟨pre, [], []⟩ with
    | t :: _ => some (setCap t.caps 0 (t.pre.drop pre.length))
    | [] => none
  | pre, x :: xs =>
    match r.run ⟨pre, x :: xs, []⟩ with
    | t :: _ => some (setCap t.caps 0 (t.pre.drop pre.length))
    | [] => Regex.execAt r (pre ++ [x]) xs

/-- The method `RegExp.prototype.exec`: the captures of the first match, or `none` for `null`. -/
def Regex.exec (r : Regex) (input : JSString) : Option (List (Nat × JSString)) :=
  r.execAt [] input

/-- The method `RegExp.prototype.test`. -/
def Regex.test (r : Regex) (input : JSString) : Bool :=
  (r.exec input).isSome

/-- Element `i` of a match array; `none` stands for `undefined`. -/
def capture (m : List (Nat × JSString)) (i : Nat) : Option JSString :=
  (m.find? (fun c => c.1 = i)).map (·.2)

/-- Concatenation of a list of regular expressions. -/
def Regex.cat : List Regex → Regex
  | [] => .star (.cls [])
  | [r] => r
  | r :: rs => .seq r (Regex.cat rs)

/-- A literal string inside a regular expression. -/
def Regex.str (s : String) : Regex := Regex.cat ((js s).map Regex.lit)

def letters : Regex := .cls [(0x41, 0x5A), (0x61, 0x7A)]

def alnum : Regex := .cls [(0x41, 0x5A), (0x61, 0x7A), (0x30, 0x39)]

/-- The pattern `/\[\[\.\.\.(.+)\]\]^$/`. -/
def optionalRestComponentPattern : Regex :=
  .cat [.lit 0x5B, .lit 0x5B, .lit 0x2E, .lit 0x2E, .lit 0x2E, .group 1 (.plus .dot),
        .lit 0x5D, .lit 0x5D, .bol, .eol]

/-- The pattern `/\[\.\.\.(.+)\]^$/`. -/
def restComponentPattern : Regex :=
  .cat [.lit 0x5B, .lit 0x2E, .lit 0x2E, .lit 0x2E, .group 1 (.plus .dot), .lit 0x5D,
        .bol, .eol]

/-- The pattern `/^\[(.+)\]$/`. -/
def componentPattern : Regex :=
  .cat [.bol, .lit 0x5B, .group 1 (.plus .dot), .lit 0x5D, .eol]

/-- The pattern `/^(\[*[A-Za-z]+\]*)\?\{([A-Za-z0-9]+(,[A-Za-z0-9]+)+)\}$/`. -/
def queryComponentPattern : Regex :=
  .cat [.bol,
        .group 1 (.cat [.star (.lit 0x5B), .plus letters, .star (.lit 0x5D)]),
        .lit 0x3F, .lit 0x7B,
        .group 2 (.cat [.plus alnum, .plus (.group 3 (.cat [.lit 0x2C, .plus alnum]))]),
        .lit 0x7D, .eol]

/-! ## The URL builder -/

/-- Run `f` over a list from left to right, stopping at the first exception. -/
def mapExcept {α β : Type} (f : α → Except JSError β) : List α → Except JSError (List β)
  | [] => .ok []
  | a :: rest =>
    match f a with
    | .error e => .error e
    | .ok b =>
      match mapExcept f rest with
      | .error e => .error e
      | .ok bs => .ok (b :: bs)

/-- A destructured element of a match array, used as a property key or inside a template
literal: an unset group reads as the string `undefined`. -/
def captureKey (m : List (Nat × JSString)) (i : Nat) : JSString :=
  (capture m i).getD (js "undefined")

/-- The function `parseURLComponent(component, params)`. -/
def parseURLComponent (component : JSString) (params : Params) : Except JSError JSString :=
  if optionalRestComponentPattern.test component then
    match restComponentPattern.exec component with
    | none => .error .typeError
    | some m =>
      let param := captureKey m 1
      if params.has param then
        match params.get param with
        | .arr values =>
          match mapExcept encodeURIComponentStr values with
          | .error e => .error e
          | .ok path => .ok (join (js "/") path)
        | _ => .error (.error (js "Invalid URL rest parameter: " ++ param))
      else .ok (join (js "/") [])
  else if restComponentPattern.test component then
    match restComponentPattern.exec component with
    | none => .error .typeError
    | some m =>
      let param := captureKey m 1
      match params.get param with
      | .arr values =>
        match mapExcept encodeURIComponentStr values with
        | .error e => .error e
        | .ok path => .ok (join (js "/") path)
      | _ => .error (.error (js "Invalid URL rest parameter: " ++ param))
  else if componentPattern.test component then
    match componentPattern.exec component with
    | none => .error .typeError
    | some m =>
      let param := captureKey m 1
      match params.get param with
      | .str value =>
        match encodeURIComponentStr value with
        | .error e => .error e
        | .ok seg => .ok (join (js "/") [seg])
      | _ => .error (.error (js "Invalid URL parameter: " ++ param))
  else
    match encodeURIComponentStr component with
    | .error e => .error e
    | .ok seg => .ok (join (js "/") [seg])

/-- One `name=value` pair of the query string. -/
def queryPair (params : Params) (queryParam : JSString) : Except JSError JSString :=
  match encodeURIComponent (params.get queryParam) with
  | .error e => .error e
  | .ok v => .ok (queryParam ++ js "=" ++ v)

/-- The loop of `makeURL` over the components of the route, with the two accumulators
`path` and `queryPath`. -/
def makeURLLoop (params : Params) :
    List JSString → List JSString → List JSString → Except JSError (List JSString × List JSString)
  | [], path, queryPath => .ok (path, queryPath)
  | component :: rest, path, queryPath =>
    if queryComponentPattern.test component then
      match queryComponentPattern.exec component with
      | none => .error .typeError
      | some m =>
        match parseURLComponent (captureKey m 1) params with
        | .error e => .error e
        | .ok seg =>
          match capture m 2 with
          | none => .error .typeError
          | some queryParams =>
            match mapExcept (queryPair params) (split 0x2C queryParams) with
            | .error e => .error e
            | .ok queryPath' => makeURLLoop params rest (path ++ [seg]) queryPath'
    else
      match parseURLComponent component params with
      | .error e => .error e
      | .ok seg => makeURLLoop params rest (path ++ [seg]) queryPath

/-- The two arrays `path` and `queryPath` at the end of the loop of `makeURL`. -/
def makeURLParts (route : JSString) (params : Params) :
    Except JSError (List JSString × List JSString) :=
  makeURLLoop params (split 0x2F route) [] []

/-- The function `makeURL(route, params)`. -/
def makeURL (route : JSString) (params : Params) : Except JSError JSString :=
  match makeURLParts route params with
  | .error e => .error e
  | .ok (path, queryPath) => .ok (join (js "?") [join (js "/") path, join (js "&") queryPath])

/-! ## The request -/

/-- Modelled from the spec: the constant `StatusCodes.OK` of the imported package
`http-status-codes`, which the spec gives as 200. -/
def StatusCodes.OK : Nat := 200

/-- Modelled from the spec: the constant `StatusCodes.NOT_MODIFIED` of the imported package
`http-status-codes`, which the spec gives as 304. -/
def StatusCodes.NOT_MODIFIED : Nat := 304

/-- A `Headers` object: its entries, with names in lower case. -/
abbrev Headers := List (JSString × JSString)

/-- The method `Headers.prototype.get`: `none` stands for `null`. -/
def Headers.get : Headers → JSString → Option JSString
  | [], _ => none
  | (k, v) :: rest, name => if k = name then some v else Headers.get rest name

/-- Create or overwrite an own property of a plain object. -/
def setOwn (result : List (JSString × JSString)) (key value : JSString) :
    List (JSString × JSString) :=
  match result with
  | [] => [(key, value)]
  | (k, v) :: rest => if k = key then (k, value) :: rest else (k, v) :: setOwn rest key value

/-- The assignment `result[key] = value` of a string on a plain object. The key `__proto__`
is an accessor inherited from `Object.prototype` whose setter ignores a string, so that
assignment leaves the object as it is; any other key becomes an own property. -/
def setProperty (result : List (JSString × JSString)) (key value : JSString) :
    List (JSString × JSString) :=
  if key = js "__proto__" then result else setOwn result key value

/-- The function `parseHeaders(headers)`. -/
def parseHeaders (headers : Headers) : List (JSString × JSString) :=
  headers.foldl (fun result kv => setProperty result kv.1 kv.2) []

/-- The method `String.prototype.indexOf` for one code unit; `none` stands for `-1`. -/
def indexOf (c : Nat) : JSString → Option Nat
  | [] => none
  | x :: xs => if x = c then some 0 else (indexOf c xs).map (· + 1)

/-- The function `parseMimeType(contentType)`; `none` stands for `null`. -/
def parseMimeType (contentType : Option JSString) : Option JSString :=
  match contentType with
  | some contentType =>
    match indexOf 0x3B contentType with
    | none => some contentType
    | some index => some (contentType.take index)
  | none => none

/-- The response the transport resolves with. The type `β` is the type of decoded JSON. -/
structure Response (β : Type) where
  status : Nat
  headers : Headers
  /-- The raw response text, the value `res.text()` resolves with. -/
  text : JSString
  /-- The outcome of `res.json()`: the decoded body, or the reason of the rejection when
  the text is not JSON. -/
  json : Except JSString β

/-- The object `init` passed to the transport. -/
structure RequestInit where
  method : JSString
  mode : JSString
  headers : Option Headers
  body : Option JSString
  deriving DecidableEq, Repr

/-- What the client takes from its surroundings. A rejection is given by its reason. -/
structure Platform (β : Type) where
  /-- The value of `process.env.API_URL`; `none` stands for `undefined`. -/
  apiURL : Option JSString
  /-- The function `JSON.stringify`; `none` stands for `undefined`. -/
  stringify : β → Except JSString (Option JSString)
  /-- The function `fetch`. -/
  fetch : JSString → RequestInit → Except JSString (Response β)

/-- The value clientFetch resolves with; a body of `none` stands for `undefined`. -/
structure Reply (β : Type) where
  headers : List (JSString × JSString)
  body : Option β

/-- The value of `init.body` after `if (body !== undefined) init.body = JSON.stringify(body)`. -/
def initBody {β : Type} (P : Platform β) (body : Option β) : Except JSError (Option JSString) :=
  match body with
  | none => .ok none
  | some b =>
    match P.stringify b with
    | .error reason => .error (.rejected reason)
    | .ok s => .ok s

/-- The expression `process.env.API_URL || '' + url`: the concatenation binds tighter than
the disjunction, and a string is truthy when it is not empty. -/
def requestURL (apiURL : Option JSString) (url : JSString) : JSString :=
  match apiURL with
  | some base => if base ≠ [] then base else js "" ++ url
  | none => js "" ++ url

/-- The part of `clientFetch` that runs once the transport has resolved with `res`. -/
def handleResponse {β : Type} (res : Response β) : Except JSError (Reply β) :=
  if res.status ≠ StatusCodes.OK ∧ res.status ≠ StatusCodes.NOT_MODIFIED then
    .error (.clientError res.status res.text)
  else
    let responseHeaders := parseHeaders res.headers
    let contentType := res.headers.get (js "content-type")
    let mimeType := parseMimeType contentType
    if mimeType = some (js "application/json") then
      match res.json with
      | .error reason => .error (.rejected reason)
      | .ok responseBody => .ok ⟨responseHeaders, some responseBody⟩
    else .ok ⟨responseHeaders, none⟩

/-- The function `clientFetch(method, route, params, headers, body)`: the calls made to the
transport, and the outcome. -/
def clientFetch {β : Type} (P : Platform β) (method route : JSString) (params : Params)
    (headers : Option Headers) (body : Option β) :
    List (JSString × RequestInit) × Except JSError (Reply β) :=
  match initBody P body with
  | .error e => ([], .error e)
  | .ok b =>
    let init : RequestInit := ⟨method, js "same-origin", headers, b⟩
    match makeURL route params with
    | .error e => ([], .error e)
    | .ok url =>
      match P.fetch (requestURL P.apiURL url) init with
      | .error reason => ([(requestURL P.apiURL url, init)], .error (.rejected reason))
      | .ok res => ([(requestURL P.apiURL url, init)], handleResponse res)

/-- The function `makeMethod(method)`, applied to `route` and to the object
`{ params, headers, body }`. -/
def makeMethod {β : Type} (P : Platform β) (method : JSString) (route : JSString)
    (params : Params) (headers : Option Headers) (body : Option β) :
    List (JSString × RequestInit) × Except JSError (Reply β) :=
  clientFetch P method route params headers body

/-! ## Predicates used in the statements -/

/-- The position `t` is reached from `s` by consuming input. -/
def Extends (s t : MState) : Prop :=
  ∃ u, t.pre = s.pre ++ u ∧ s.rest = u ++ t.rest

/-- Code units that `encodeURIComponent` can produce: the unreserved ones and the percent
sign. -/
def isEncoded (c : Nat) : Bool := isUnreserved c || c = 0x25

/-- The class `[A-Za-z]`. -/
def isLetter (c : Nat) : Bool := (0x41 ≤ c && c ≤ 0x5A) || (0x61 ≤ c && c ≤ 0x7A)

/-- The class `[A-Za-z0-9]`. -/
def isAlnum (c : Nat) : Bool := isLetter c || (0x30 ≤ c && c ≤ 0x39)

/-- The name portion of a query-bearing segment: opening brackets, letters, closing
brackets. -/
def namePortion (lb rb : Nat) (ls : JSString) : JSString :=
  List.replicate lb 0x5B ++ ls ++ List.replicate rb 0x5D

/-- The segment written as a name portion, a question mark and a brace list of names. -/
def querySegment (name : JSString) (names : List JSString) : JSString :=
  name ++ js "?\x7b" ++ join (js ",") names ++ js "\x7d"

/-- The code units that a regular expression can consume. -/
def Regex.accepts : Regex → Nat → Bool
  | .lit c, x => x = c
  | .dot, x => !isLineTerminator x
  | .cls ranges, x => inRanges ranges x
  | .bol, _ => false
  | .eol, _ => false
  | .seq a b, x => a.accepts x || b.accepts x
  | .star r, x => r.accepts x
  | .plus r, x => r.accepts x
  | .group _ r, x => r.accepts x

/-- The numbers of the capturing groups of a regular expression. -/
def Regex.groups : Regex → List Nat
  | .lit _ => []
  | .dot => []
  | .cls _ => []
  | .bol => []
  | .eol => []
  | .seq a b => a.groups ++ b.groups
  | .star r => r.groups
  | .plus r => r.groups
  | .group i r => i :: r.groups

/-! ## The matcher only moves forward -/

theorem Extends.refl (s : MState) : Extends s s := ⟨[], by simp, by simp⟩

theorem Extends.trans {s t u : MState} (h₁ : Extends s t) (h₂ : Extends t u) : Extends s u := by
  obtain ⟨a, ha₁, ha₂⟩ := h₁
  obtain ⟨b, hb₁, hb₂⟩ := h₂
  exact ⟨a ++ b, by simp [hb₁, ha₁], by simp [ha₂, hb₂]⟩

theorem stepChar_mem {p : Nat → Bool} {s t : MState} (h : t ∈ stepChar p s) :
    ∃ x, p x = true ∧ s.rest = x :: t.rest ∧ t.pre = s.pre ++ [x] ∧ t.caps = s.caps := by
  unfold stepChar at h
  split at h
  · simp at h
  · rename_i x xs hx
    by_cases hp : p x = true
    · simp [hp] at h
      subst h
      exact ⟨x, hp, by simp [hx], rfl, rfl⟩
    · simp [hp] at h

theorem stepChar_extends {p : Nat → Bool} {s t : MState} (h : t ∈ stepChar p s) :
    Extends s t := by
  obtain ⟨x, -, h₁, h₂, -⟩ := stepChar_mem h
  exact ⟨[x], h₂, by simp [h₁]⟩

theorem starLoop_extends {step : MState → List MState}
    (hstep : ∀ s t, t ∈ step s → Extends s t) :
    ∀ (fuel : Nat) (s t : MState), t ∈ starLoop step fuel s → Extends s t := by
  intro fuel
  induction fuel with
  | zero =>
    intro s t h
    simp [starLoop] at h
    subst h
    exact Extends.refl _
  | succ n ih =>
    intro s t h
    simp only [starLoop, List.mem_append, List.mem_flatMap, List.mem_filter,
      List.mem_singleton] at h
    rcases h with ⟨m, ⟨hm, -⟩, ht⟩ | h
    · exact (hstep s m hm).trans (ih m t ht)
    · subst h
      exact Extends.refl _

theorem run_extends : ∀ (r : Regex) (s t : MState), t ∈ r.run s → Extends s t := by
  intro r
  induction r with
  | lit c => intro s t h; exact stepChar_extends h
  | dot => intro s t h; exact stepChar_extends h
  | cls ranges => intro s t h; exact stepChar_extends h
  | bol =>
    intro s t h
    simp only [Regex.run] at h
    split at h
    · simp at h; subst h; exact Extends.refl _
    · simp at h
  | eol =>
    intro s t h
    simp only [Regex.run] at h
    split at h
    · simp at h; subst h; exact Extends.refl _
    · simp at h
  | seq a b iha ihb =>
    intro s t h
    simp only [Regex.run, List.mem_flatMap] at h
    obtain ⟨m, hm, ht⟩ := h
    exact (iha s m hm).trans (ihb m t ht)
  | star r ih =>
    intro s t h
    simp only [Regex.run] at h
    exact starLoop_extends ih _ s t h
  | plus r ih =>
    intro s t h
    simp only [Regex.run, List.mem_flatMap] at h
    obtain ⟨m, hm, ht⟩ := h
    exact (ih s m hm).trans (starLoop_extends ih _ m t ht)
  | group i r ih =>
    intro s t h
    simp only [Regex.run, List.mem_map] at h
    obtain ⟨m, hm, ht⟩ := h
    subst ht
    exact ih s m hm

/-! ## The two rest patterns match no string -/

theorem execAt_none {r : Regex} (h : ∀ s, r.run s = []) :
    ∀ (rest pre : JSString), r.execAt pre rest = none := by
  intro rest
  induction rest with
  | nil => intro pre; simp [Regex.execAt, h]
  | cons x xs ih => intro pre; simp [Regex.execAt, h, ih]

theorem seq_dead {a b : Regex} (hb : ∀ s, s.pre ≠ [] → b.run s = []) :
    ∀ s, s.pre ≠ [] → (Regex.seq a b).run s = [] := by
  intro s hs
  simp only [Regex.run, List.flatMap_eq_nil_iff]
  intro m hm
  obtain ⟨u, hu, -⟩ := run_extends a s m hm
  exact hb m (by simp [hu, hs])

theorem lit_seq_dead {c : Nat} {b : Regex} (hb : ∀ s, s.pre ≠ [] → b.run s = []) :
    ∀ s, (Regex.seq (.lit c) b).run s = [] := by
  intro s
  simp only [Regex.run, List.flatMap_eq_nil_iff]
  intro m hm
  obtain ⟨x, -, -, hx, -⟩ := stepChar_mem hm
  exact hb m (by simp [hx])

theorem bol_eol_dead : ∀ s : MState, s.pre ≠ [] → (Regex.seq .bol .eol).run s = [] := by
  intro s hs
  simp [Regex.run, hs]

theorem restComponentPattern_run (s : MState) : restComponentPattern.run s = [] := by
  unfold restComponentPattern
  simp only [Regex.cat]
  exact lit_seq_dead (seq_dead (seq_dead (seq_dead (seq_dead (seq_dead bol_eol_dead))))) s

theorem optionalRestComponentPattern_run (s : MState) :
    optionalRestComponentPattern.run s = [] := by
  unfold optionalRestComponentPattern
  simp only [Regex.cat]
  exact lit_seq_dead
    (seq_dead (seq_dead (seq_dead (seq_dead (seq_dead (seq_dead (seq_dead bol_eol_dead))))))) s

theorem restComponentPattern_exec (input : JSString) : restComponentPattern.exec input = none :=
  execAt_none restComponentPattern_run input []

theorem restComponentPattern_test (input : JSString) :
    restComponentPattern.test input = false := by
  simp [Regex.test, restComponentPattern_exec]

theorem optionalRestComponentPattern_test (input : JSString) :
    optionalRestComponentPattern.test input = false := by
  simp [Regex.test, Regex.exec, execAt_none optionalRestComponentPattern_run]

/-! ## Greedy repetition of a one-character step -/

theorem stepChar_cons {p : Nat → Bool} {x : Nat} (hx : p x = true) (pre xs : JSString)
    (caps : List (Nat × JSString)) :
    stepChar p ⟨pre, x :: xs, caps⟩ = [⟨pre ++ [x], xs, caps⟩] := by
  simp [stepChar, hx]

theorem stepChar_stop {p : Nat → Bool} {pre rest : JSString} {caps : List (Nat × JSString)}
    (h : ∀ x xs, rest = x :: xs → p x = false) :
    stepChar p ⟨pre, rest, caps⟩ = [] := by
  cases rest with
  | nil => rfl
  | cons x xs => simp [stepChar, h x xs rfl]

theorem starLoop_stop {p : Nat → Bool} {pre rest : JSString} {caps : List (Nat × JSString)}
    (h : ∀ x xs, rest = x :: xs → p x = false) (fuel : Nat) :
    starLoop (stepChar p) fuel ⟨pre, rest, caps⟩ = [⟨pre, rest, caps⟩] := by
  cases fuel with
  | zero => rfl
  | succ n => simp [starLoop, stepChar_stop h]

theorem starLoop_cons {p : Nat → Bool} {x : Nat} (hx : p x = true) (pre xs : JSString)
    (caps : List (Nat × JSString)) (fuel : Nat) :
    starLoop (stepChar p) (fuel + 1) ⟨pre, x :: xs, caps⟩ =
      starLoop (stepChar p) fuel ⟨pre ++ [x], xs, caps⟩ ++ [⟨pre, x :: xs, caps⟩] := by
  simp [starLoop, stepChar_cons hx]

/-- The first continuation to succeed after a greedy repetition, when the repetition stops
by itself after `ys` and the continuation succeeds there. -/
theorem starLoop_greedy {β : Type} (p : Nat → Bool) (K : MState → List β) (rest : JSString)
    (hrest : ∀ x xs, rest = x :: xs → p x = false) (caps : List (Nat × JSString)) :
    ∀ (ys pre : JSString) (fuel : Nat), (∀ y ∈ ys, p y = true) → ys.length ≤ fuel →
      K ⟨pre ++ ys, rest, caps⟩ ≠ [] →
      ((starLoop (stepChar p) fuel ⟨pre, ys ++ rest, caps⟩).flatMap K).head? =
        (K ⟨pre ++ ys, rest, caps⟩).head? := by
  intro ys
  induction ys with
  | nil =>
    intro pre fuel _ _ _
    simp [starLoop_stop hrest]
  | cons y ys ih =>
    intro pre fuel hys hfuel hK
    obtain ⟨n, rfl⟩ : ∃ n, fuel = n + 1 := ⟨fuel - 1, by simp at hfuel; omega⟩
    have hy : p y = true := hys y (by simp)
    have hK' : K ⟨(pre ++ [y]) ++ ys, rest, caps⟩ ≠ [] := by simpa using hK
    have := ih (pre ++ [y]) n (fun z hz => hys z (by simp [hz])) (by simp at hfuel; omega) hK'
    simp only [List.cons_append, starLoop_cons hy, List.flatMap_append, List.head?_append, this]
    cases hk : K ⟨(pre ++ [y]) ++ ys, rest, caps⟩ with
    | nil => exact absurd hk hK'
    | cons a as =>
      have e : pre ++ y :: ys = pre ++ [y] ++ ys := by simp
      simp only [hk, List.head?_cons, Option.or_some, e]

/-- The first continuation to succeed after a greedy repetition that runs to the end of the
input, when the continuation needs the last code unit. -/
theorem starLoop_backoff {β : Type} (p : Nat → Bool) (K : MState → List β) (last : Nat)
    (hlast : p last = true) (caps : List (Nat × JSString)) :
    ∀ (ys pre : JSString) (fuel : Nat), (∀ y ∈ ys, p y = true) → ys.length + 1 ≤ fuel →
      K ⟨pre ++ ys ++ [last], [], caps⟩ = [] →
      K ⟨pre ++ ys, [last], caps⟩ ≠ [] →
      ((starLoop (stepChar p) fuel ⟨pre, ys ++ [last], caps⟩).flatMap K).head? =
        (K ⟨pre ++ ys, [last], caps⟩).head? := by
  intro ys
  induction ys with
  | nil =>
    intro pre fuel _ hfuel hend _
    obtain ⟨n, rfl⟩ : ∃ n, fuel = n + 1 := ⟨fuel - 1, by omega⟩
    have hstop : ∀ x xs, ([] : JSString) = x :: xs → p x = false := by
      intro x xs h; cases h
    simp only [List.nil_append, starLoop_cons hlast, starLoop_stop hstop, List.flatMap_append,
      List.flatMap_cons, List.flatMap_nil, List.append_nil]
    simp at hend
    simp [hend]
  | cons y ys ih =>
    intro pre fuel hys hfuel hend hK
    obtain ⟨n, rfl⟩ : ∃ n, fuel = n + 1 := ⟨fuel - 1, by simp at hfuel; omega⟩
    have hy : p y = true := hys y (by simp)
    have hK' : K ⟨(pre ++ [y]) ++ ys, [last], caps⟩ ≠ [] := by simpa using hK
    have := ih (pre ++ [y]) n (fun z hz => hys z (by simp [hz])) (by simp at hfuel; omega)
      (by simpa using hend) hK'
    simp only [List.cons_append, starLoop_cons hy, List.flatMap_append, List.head?_append, this]
    cases hk : K ⟨(pre ++ [y]) ++ ys, [last], caps⟩ with
    | nil => exact absurd hk hK'
    | cons a as =>
      have e : pre ++ y :: ys = pre ++ [y] ++ ys := by simp
      simp only [hk, List.head?_cons, Option.or_some, e]

/-! ## The pattern of a named segment -/

theorem execAt_of_head {r : Regex} {pre rest : JSString} {t : MState}
    (h : (r.run ⟨pre, rest, []⟩).head? = some t) :
    r.execAt pre rest = some (setCap t.caps 0 (t.pre.drop pre.length)) := by
  cases rest with
  | nil =>
    cases hr : r.run ⟨pre, [], []⟩ with
    | nil => simp [hr] at h
    | cons a as => simp [hr] at h; simp [Regex.execAt, hr, h]
  | cons x xs =>
    cases hr : r.run ⟨pre, x :: xs, []⟩ with
    | nil => simp [hr] at h
    | cons a as => simp [hr] at h; simp [Regex.execAt, hr, h]

theorem run_bol_start (rest : JSString) (caps : List (Nat × JSString)) :
    Regex.bol.run ⟨[], rest, caps⟩ = [⟨[], rest, caps⟩] := by
  simp [Regex.run]

theorem run_lit_cons (c : Nat) (pre xs : JSString) (caps : List (Nat × JSString)) :
    (Regex.lit c).run ⟨pre, c :: xs, caps⟩ = [⟨pre ++ [c], xs, caps⟩] := by
  simp [Regex.run, stepChar]

theorem run_lit_nil (c : Nat) (pre : JSString) (caps : List (Nat × JSString)) :
    (Regex.lit c).run ⟨pre, [], caps⟩ = [] := by
  simp [Regex.run, stepChar]

theorem run_eol_nil (pre : JSString) (caps : List (Nat × JSString)) :
    Regex.eol.run ⟨pre, [], caps⟩ = [⟨pre, [], caps⟩] := by
  simp [Regex.run]

theorem run_dot_eq : Regex.dot.run = stepChar (fun x => !isLineTerminator x) := by
  funext s; simp [Regex.run]

theorem componentPattern_run_bracket (n : JSString) (hn : n ≠ [])
    (hlt : ∀ x ∈ n, isLineTerminator x = false) :
    (componentPattern.run ⟨[], 0x5B :: (n ++ [0x5D]), []⟩).head? =
      some ⟨0x5B :: (n ++ [0x5D]), [], [(1, n)]⟩ := by
  cases n with
  | nil => exact absurd rfl hn
  | cons y ys =>
    have hy : (fun x => !isLineTerminator x) y = true := by simp [hlt y (by simp)]
    have hys : ∀ z ∈ ys, (fun x => !isLineTerminator x) z = true := by
      intro z hz; simp [hlt z (by simp [hz])]
    have key := starLoop_backoff (fun x => !isLineTerminator x)
      (fun t => (Regex.seq (.lit 0x5D) .eol).run
        { t with caps := setCap t.caps 1 (t.pre.drop 1) })
      0x5D (by decide) [] ys [0x5B, y] (ys.length + 1) hys (Nat.le_refl _)
      (by simp [Regex.run, stepChar])
      (by simp [Regex.run, stepChar])
    show ((Regex.bol.run ⟨[], 0x5B :: ((y :: ys) ++ [0x5D]), []⟩).flatMap
      (Regex.seq (.lit 0x5B) (.seq (.group 1 (.plus .dot)) (.seq (.lit 0x5D) .eol))).run).head?
      = _
    rw [run_bol_start]
    simp only [List.flatMap_cons, List.flatMap_nil, List.append_nil]
    show (((Regex.lit 0x5B).run ⟨[], 0x5B :: ((y :: ys) ++ [0x5D]), []⟩).flatMap
      (Regex.seq (.group 1 (.plus .dot)) (.seq (.lit 0x5D) .eol)).run).head? = _
    rw [run_lit_cons]
    simp only [List.flatMap_cons, List.flatMap_nil, List.append_nil]
    show ((((Regex.dot.run ⟨[] ++ [0x5B], (y :: ys) ++ [0x5D], []⟩).flatMap
        (fun t => starLoop Regex.dot.run t.rest.length t)).map
        (fun t => { t with caps := setCap t.caps 1 (t.pre.drop ([] ++ [0x5B] : JSString).length) })).flatMap
        (Regex.seq (.lit 0x5D) .eol).run).head? = _
    rw [run_dot_eq, List.cons_append, stepChar_cons hy]
    simp only [List.flatMap_cons, List.flatMap_nil, List.append_nil, List.flatMap_map,
      List.nil_append, List.length_singleton, List.length_append]
    refine Eq.trans key ?_
    simp [Regex.run, stepChar, setCap]

theorem componentPattern_exec_bracket (n : JSString) (hn : n ≠ [])
    (hlt : ∀ x ∈ n, isLineTerminator x = false) :
    componentPattern.exec (0x5B :: (n ++ [0x5D])) =
      some [(0, 0x5B :: (n ++ [0x5D])), (1, n)] := by
  have h := execAt_of_head (componentPattern_run_bracket n hn hlt)
  simpa [Regex.exec, setCap] using h

/-! ## What a match says about the input -/

theorem execAt_bol_none (b : Regex) :
    ∀ (rest pre : JSString), pre ≠ [] → (Regex.seq .bol b).execAt pre rest = none := by
  intro rest
  induction rest with
  | nil => intro pre hpre; simp [Regex.execAt, Regex.run, hpre]
  | cons x xs ih => intro pre hpre; simp [Regex.execAt, Regex.run, hpre, ih]

theorem exec_bol_run_nil {b : Regex} {input : JSString}
    (h : b.run ⟨[], input, []⟩ = []) : (Regex.seq .bol b).exec input = none := by
  cases input with
  | nil => simp [Regex.exec, Regex.execAt, Regex.run, h]
  | cons x xs => simp [Regex.exec, Regex.execAt, Regex.run, h, execAt_bol_none]

theorem run_start_pre {r : Regex} {input : JSString} {t : MState}
    (h : t ∈ r.run ⟨[], input, []⟩) : input = t.pre ++ t.rest := by
  obtain ⟨u, hu₁, hu₂⟩ := run_extends r _ t h
  simp at hu₁ hu₂
  rw [hu₁, hu₂]

theorem componentPattern_test_head {input : JSString}
    (h : componentPattern.test input = true) : ∃ xs, input = 0x5B :: xs := by
  by_contra hne
  have hrun : (Regex.cat [.lit 0x5B, .group 1 (.plus .dot), .lit 0x5D, .eol]).run
      ⟨[], input, []⟩ = [] := by
    cases input with
    | nil => simp [Regex.cat, Regex.run, stepChar]
    | cons x xs =>
      have hx : x ≠ 0x5B := fun hx => hne ⟨xs, by rw [hx]⟩
      simp [Regex.cat, Regex.run, stepChar, hx]
  have : componentPattern.exec input = none := exec_bol_run_nil hrun
  simp [Regex.test, this] at h

theorem run_seq_mem {a b : Regex} {s t : MState} (h : t ∈ (Regex.seq a b).run s) :
    ∃ m, m ∈ a.run s ∧ t ∈ b.run m := by
  simpa [Regex.run, List.mem_flatMap] using h

theorem queryComponentPattern_test_last {input : JSString}
    (h : queryComponentPattern.test input = true) : ∃ w, input = w ++ [0x7D] := by
  by_contra hne
  have hrun : (Regex.cat [
        .group 1 (.cat [.star (.lit 0x5B), .plus letters, .star (.lit 0x5D)]),
        .lit 0x3F, .lit 0x7B,
        .group 2 (.cat [.plus alnum, .plus (.group 3 (.cat [.lit 0x2C, .plus alnum]))]),
        .lit 0x7D, .eol]).run ⟨[], input, []⟩ = [] := by
    apply List.eq_nil_iff_forall_not_mem.mpr
    intro t ht
    have hinput := run_start_pre ht
    simp only [Regex.cat] at ht
    obtain ⟨m₁, -, ht⟩ := run_seq_mem ht
    obtain ⟨m₂, -, ht⟩ := run_seq_mem ht
    obtain ⟨m₃, -, ht⟩ := run_seq_mem ht
    obtain ⟨m₄, -, ht⟩ := run_seq_mem ht
    obtain ⟨m₅, hm₅, ht⟩ := run_seq_mem ht
    obtain ⟨x, hx, -, hpre, -⟩ := stepChar_mem hm₅
    simp only [Regex.run] at ht
    split at ht
    · rename_i hrest
      simp at ht
      subst ht
      simp at hx
      exact hne ⟨m₄.pre, by rw [hinput, hrest, hpre, hx]; simp⟩
    · simp at ht
  have : queryComponentPattern.exec input = none := exec_bol_run_nil hrun
  simp [Regex.test, this] at h

/-! ## parseURLComponent, branch by branch -/

theorem parseURLComponent_eq (component : JSString) (params : Params) :
    parseURLComponent component params =
      if componentPattern.test component then
        match componentPattern.exec component with
        | none => .error .typeError
        | some m =>
          match params.get (captureKey m 1) with
          | .str value => encodeURIComponentStr value
          | _ => .error (.error (js "Invalid URL parameter: " ++ captureKey m 1))
      else encodeURIComponentStr component := by
  have hjoin : ∀ seg : JSString, join (js "/") [seg] = seg := fun _ => rfl
  unfold parseURLComponent
  simp only [optionalRestComponentPattern_test, restComponentPattern_test, hjoin]
  simp only [Bool.false_eq_true, if_false]
  split
  · split
    · rfl
    · split
      · split <;> simp_all
      · rfl
  · split <;> simp_all

theorem parseURLComponent_bracket (n : JSString) (params : Params) (hn : n ≠ [])
    (hlt : ∀ x ∈ n, isLineTerminator x = false) :
    parseURLComponent (0x5B :: (n ++ [0x5D])) params =
      match params.get n with
      | .str value => encodeURIComponentStr value
      | _ => .error (.error (js "Invalid URL parameter: " ++ n)) := by
  rw [parseURLComponent_eq]
  have hexec := componentPattern_exec_bracket n hn hlt
  have hkey : captureKey [(0, 0x5B :: (n ++ [0x5D])), (1, n)] 1 = n := by
    simp [captureKey, capture]
  simp only [Regex.test, hexec, Option.isSome_some, if_true, hkey]

theorem parseURLComponent_literal (component : JSString) (params : Params)
    (h : componentPattern.test component = false) :
    parseURLComponent component params = encodeURIComponentStr component := by
  rw [parseURLComponent_eq]
  simp [h]

/-! ## split and join -/

theorem split_ne_nil (sep : Nat) (s : JSString) : split sep s ≠ [] := by
  cases s with
  | nil => simp [split]
  | cons c cs =>
    simp only [split]
    split
    · simp
    · split <;> simp

theorem join_cons_cons (sep a : JSString) (l : List JSString) (h : l ≠ []) :
    join sep (a :: l) = a ++ sep ++ join sep l := by
  cases l with
  | nil => exact absurd rfl h
  | cons b rest => rfl

theorem join_split (sep : Nat) (s : JSString) : join [sep] (split sep s) = s := by
  induction s with
  | nil => rfl
  | cons c cs ih =>
    simp only [split]
    split
    · rename_i hc
      rw [join_cons_cons _ _ _ (split_ne_nil sep cs), ih, hc]
      rfl
    · cases hs : split sep cs with
      | nil => exact absurd hs (split_ne_nil sep cs)
      | cons h t =>
        rw [hs] at ih
        cases t with
        | nil =>
          simp only [join] at ih ⊢
          rw [ih]
        | cons b rest =>
          simp only [join] at ih ⊢
          rw [← ih]
          simp

theorem split_mem {sep : Nat} : ∀ {s comp : JSString} {c : Nat},
    comp ∈ split sep s → c ∈ comp → c ∈ s ∧ c ≠ sep := by
  intro s
  induction s with
  | nil =>
    intro comp c hcomp hc
    simp [split] at hcomp
    subst hcomp
    simp at hc
  | cons x xs ih =>
    intro comp c hcomp hc
    simp only [split] at hcomp
    split at hcomp
    · simp only [List.mem_cons] at hcomp
      rcases hcomp with h | h
      · subst h; simp at hc
      · obtain ⟨h₁, h₂⟩ := ih h hc
        exact ⟨List.mem_cons_of_mem _ h₁, h₂⟩
    · rename_i hx
      cases hs : split sep xs with
      | nil => exact absurd hs (split_ne_nil sep xs)
      | cons h t =>
        rw [hs] at hcomp
        simp only [List.mem_cons] at hcomp
        rcases hcomp with hh | hh
        · subst hh
          simp only [List.mem_cons] at hc
          rcases hc with hc | hc
          · subst hc; exact ⟨by simp, hx⟩
          · obtain ⟨h₁, h₂⟩ := @ih h c (by rw [hs]; simp) hc
            exact ⟨List.mem_cons_of_mem _ h₁, h₂⟩
        · obtain ⟨h₁, h₂⟩ := @ih comp c (by rw [hs]; simp [hh]) hc
          exact ⟨List.mem_cons_of_mem _ h₁, h₂⟩

theorem split_no_sep {sep : Nat} {s : JSString} (h : sep ∉ s) : split sep s = [s] := by
  induction s with
  | nil => rfl
  | cons c cs ih =>
    have hc : c ≠ sep := fun e => h (by simp [e])
    have hcs : sep ∉ cs := fun e => h (by simp [e])
    simp [split, hc, ih hcs]

theorem split_append_sep {sep : Nat} (a b : JSString) (h : sep ∉ a) :
    split sep (a ++ sep :: b) = a :: split sep b := by
  induction a with
  | nil => simp [split]
  | cons c cs ih =>
    have hc : c ≠ sep := fun e => h (by simp [e])
    have hcs : sep ∉ cs := fun e => h (by simp [e])
    simp [split, hc, ih hcs]

theorem split_join (sep : Nat) : ∀ (comps : List JSString), comps ≠ [] →
    (∀ comp ∈ comps, sep ∉ comp) → split sep (join [sep] comps) = comps := by
  intro comps
  induction comps with
  | nil => intro h; exact absurd rfl h
  | cons a rest ih =>
    intro _ hsep
    cases rest with
    | nil => simpa [join] using split_no_sep (hsep a (by simp))
    | cons b rest =>
      have := ih (by simp) (fun comp hc => hsep comp (by simp [hc]))
      simp only [join, List.append_assoc, List.singleton_append]
      rw [split_append_sep _ _ (hsep a (by simp))]
      simp only [join] at this
      rw [this]

/-! ## encodeURIComponent -/

theorem encodeURIComponentStr_unreserved :
    ∀ (s : JSString), (∀ c ∈ s, isUnreserved c = true) → encodeURIComponentStr s = .ok s := by
  intro s
  induction s with
  | nil => intro _; rfl
  | cons c cs ih =>
    intro h
    have hc : isUnreserved c = true := h c (by simp)
    have hcs := ih (fun d hd => h d (by simp [hd]))
    cases cs with
    | nil => simp [encodeURIComponentStr, hc]
    | cons d rest => simp [encodeURIComponentStr, hc, hcs, Except.map]

theorem hexDigit_unreserved (n : Nat) (h : n < 16) : isUnreserved (hexDigit n) = true := by
  interval_cases n <;> decide

theorem percentByte_encoded (b : Nat) : ∀ c ∈ percentByte b, isEncoded c = true := by
  intro c hc
  simp only [percentByte, List.mem_cons, List.mem_singleton, List.not_mem_nil, or_false] at hc
  rcases hc with h | h | h
  · subst h; decide
  · subst h
    simp [isEncoded, hexDigit_unreserved _ (Nat.mod_lt _ (by decide))]
  · subst h
    simp [isEncoded, hexDigit_unreserved _ (Nat.mod_lt _ (by decide))]

theorem join_nil_mem {l : List JSString} {c : Nat} (h : c ∈ join [] l) :
    ∃ a ∈ l, c ∈ a := by
  induction l with
  | nil => simp [join] at h
  | cons a rest ih =>
    cases rest with
    | nil => exact ⟨a, by simp, by simpa [join] using h⟩
    | cons b rest =>
      simp only [join, List.append_nil, List.mem_append] at h
      rcases h with h | h
      · exact ⟨a, by simp, h⟩
      · obtain ⟨x, hx, hcx⟩ := ih h
        exact ⟨x, List.mem_cons_of_mem _ hx, hcx⟩

theorem percentEncode_encoded (cp : Nat) : ∀ c ∈ percentEncode cp, isEncoded c = true := by
  intro c hc
  obtain ⟨a, ha, hca⟩ := join_nil_mem hc
  simp only [List.mem_map] at ha
  obtain ⟨b, -, rfl⟩ := ha
  exact percentByte_encoded b c hca

theorem encodeURIComponentStr_encoded :
    ∀ (n : Nat) (s e : JSString), s.length ≤ n → encodeURIComponentStr s = .ok e →
      ∀ c ∈ e, isEncoded c = true := by
  intro n
  induction n with
  | zero =>
    intro s e hlen h c hc
    cases s with
    | nil => simp [encodeURIComponentStr] at h; subst h; simp at hc
    | cons x xs => simp at hlen
  | succ n ih =>
    intro s e hlen h c hc
    match s, hlen, h with
    | [], _, h => simp [encodeURIComponentStr] at h; subst h; simp at hc
    | [x], _, h =>
      simp only [encodeURIComponentStr] at h
      split at h
      · rename_i hx
        cases h
        simp only [List.mem_singleton] at hc
        subst hc
        simp [isEncoded, hx]
      · split at h
        · cases h
          exact percentEncode_encoded x c hc
        · cases h
    | x :: d :: rest, hlen, h =>
      simp only [encodeURIComponentStr] at h
      split at h
      · rename_i hx
        cases hr : encodeURIComponentStr (d :: rest) with
        | error err => simp [hr, Except.map] at h
        | ok r =>
          simp only [hr, Except.map, Except.ok.injEq] at h
          subst h
          simp only [List.mem_cons] at hc
          rcases hc with hc | hc
          · subst hc; simp [isEncoded, hx]
          · exact ih (d :: rest) r (by simp at hlen ⊢; omega) hr c hc
      · split at h
        · cases hr : encodeURIComponentStr (d :: rest) with
          | error err => simp [hr, Except.map] at h
          | ok r =>
            simp only [hr, Except.map, Except.ok.injEq] at h
            subst h
            simp only [List.mem_append] at hc
            rcases hc with hc | hc
            · exact percentEncode_encoded x c hc
            · exact ih (d :: rest) r (by simp at hlen ⊢; omega) hr c hc
        · split at h
          · cases hr : encodeURIComponentStr rest with
            | error err => simp [hr, Except.map] at h
            | ok r =>
              simp only [hr, Except.map, Except.ok.injEq] at h
              subst h
              simp only [List.mem_append] at hc
              rcases hc with hc | hc
              · exact percentEncode_encoded _ c hc
              · exact ih rest r (by simp at hlen ⊢; omega) hr c hc
          · cases h

theorem encodeURIComponentStr_error :
    ∀ (n : Nat) (s : JSString) (e : JSError), s.length ≤ n →
      encodeURIComponentStr s = .error e → e = .uriError := by
  intro n
  induction n with
  | zero =>
    intro s e hlen h
    cases s with
    | nil => simp [encodeURIComponentStr] at h
    | cons x xs => simp at hlen
  | succ n ih =>
    intro s e hlen h
    match s, hlen, h with
    | [], _, h => simp [encodeURIComponentStr] at h
    | [x], _, h =>
      simp only [encodeURIComponentStr] at h
      split at h
      · cases h
      · split at h
        · cases h
        · cases h; rfl
    | x :: d :: rest, hlen, h =>
      simp only [encodeURIComponentStr] at h
      split at h
      · cases hr : encodeURIComponentStr (d :: rest) with
        | error err =>
          simp only [hr, Except.map, Except.error.injEq] at h
          subst h
          exact ih (d :: rest) err (by simp at hlen ⊢; omega) hr
        | ok r => simp [hr, Except.map] at h
      · split at h
        · cases hr : encodeURIComponentStr (d :: rest) with
          | error err =>
            simp only [hr, Except.map, Except.error.injEq] at h
            subst h
            exact ih (d :: rest) err (by simp at hlen ⊢; omega) hr
          | ok r => simp [hr, Except.map] at h
        · split at h
          · cases hr : encodeURIComponentStr rest with
            | error err =>
              simp only [hr, Except.map, Except.error.injEq] at h
              subst h
              exact ih rest err (by simp at hlen ⊢; omega) hr
            | ok r => simp [hr, Except.map] at h
          · cases h; rfl

theorem makeURLLoop_plain_step (params : Params) (component : JSString)
    (rest path queryPath : List JSString)
    (h : queryComponentPattern.test component = false) :
    makeURLLoop params (component :: rest) path queryPath =
      match parseURLComponent component params with
      | .error e => .error e
      | .ok seg => makeURLLoop params rest (path ++ [seg]) queryPath := by
  simp [makeURLLoop, h]

theorem queryComponentPattern_test_bracket (n : JSString) :
    queryComponentPattern.test (0x5B :: (n ++ [0x5D])) = false := by
  cases h : queryComponentPattern.test (0x5B :: (n ++ [0x5D])) with
  | false => rfl
  | true =>
    obtain ⟨w, hw⟩ := queryComponentPattern_test_last h
    have := congrArg List.getLast? hw
    rw [← List.cons_append, List.getLast?_append, List.getLast?_append] at this
    simp at this

theorem makeURLLoop_plain (params : Params) :
    ∀ (comps path queryPath : List JSString),
      (∀ c ∈ comps, queryComponentPattern.test c = false) →
      makeURLLoop params comps path queryPath =
        match mapExcept (fun c => parseURLComponent c params) comps with
        | .error e => .error e
        | .ok segs => .ok (path ++ segs, queryPath) := by
  intro comps
  induction comps with
  | nil => intro path queryPath _; simp [makeURLLoop, mapExcept]
  | cons c rest ih =>
    intro path queryPath h
    rw [makeURLLoop_plain_step _ _ _ _ _ (h c (by simp))]
    simp only [mapExcept]
    cases hp : parseURLComponent c params with
    | error e => rfl
    | ok seg =>
      simp only
      rw [ih _ _ (fun d hd => h d (by simp [hd]))]
      cases mapExcept (fun c => parseURLComponent c params) rest with
      | error e => rfl
      | ok segs => simp

theorem unreserved_component {c : JSString} (h : ∀ x ∈ c, isUnreserved x = true) :
    queryComponentPattern.test c = false ∧ componentPattern.test c = false := by
  constructor
  · cases ht : queryComponentPattern.test c with
    | false => rfl
    | true =>
      obtain ⟨w, hw⟩ := queryComponentPattern_test_last ht
      have := h 0x7D (by rw [hw]; simp)
      simp [isUnreserved] at this
  · cases ht : componentPattern.test c with
    | false => rfl
    | true =>
      obtain ⟨xs, hxs⟩ := componentPattern_test_head ht
      have := h 0x5B (by rw [hxs]; simp)
      simp [isUnreserved] at this

theorem mapExcept_literal (params : Params) :
    ∀ (comps : List JSString), (∀ c ∈ comps, ∀ x ∈ c, isUnreserved x = true) →
      mapExcept (fun c => parseURLComponent c params) comps = .ok comps := by
  intro comps
  induction comps with
  | nil => intro _; rfl
  | cons c rest ih =>
    intro h
    have hc := h c (by simp)
    simp only [mapExcept]
    rw [parseURLComponent_literal _ _ (unreserved_component hc).2,
      encodeURIComponentStr_unreserved c hc, ih (fun d hd => h d (by simp [hd]))]

theorem encoded_not_reserved {c : Nat} (h : isEncoded c = true) :
    c ≠ 0x20 ∧ c ≠ 0x26 ∧ c ≠ 0x2F ∧ c ≠ 0x3F := by
  simp only [isEncoded, isUnreserved, Bool.or_eq_true, Bool.and_eq_true, decide_eq_true_eq] at h
  omega

theorem clientFetch_response {β : Type} (P : Platform β) (method route : JSString)
    (params : Params) (headers : Option Headers) (body : Option β) (b : Option JSString)
    (url : JSString) (res : Response β) (hbody : initBody P body = .ok b)
    (hurl : makeURL route params = .ok url)
    (hres : P.fetch (requestURL P.apiURL url) ⟨method, js "same-origin", headers, b⟩ = .ok res) :
    clientFetch P method route params headers body =
      ([(requestURL P.apiURL url, ⟨method, js "same-origin", headers, b⟩)],
        handleResponse res) := by
  simp [clientFetch, hbody, hurl, hres]

/-! ## The first match of a pattern that needs no backtracking -/

theorem head_seq {a b : Regex} {s m t : MState} (ha : (a.run s).head? = some m)
    (hb : (b.run m).head? = some t) : ((Regex.seq a b).run s).head? = some t := by
  cases hl : a.run s with
  | nil => simp [hl] at ha
  | cons x xs =>
    simp only [hl, List.head?_cons, Option.some.injEq] at ha
    subst ha
    simp [Regex.run, hl, hb]

theorem head_group {r : Regex} {s m : MState} (i : Nat) (h : (r.run s).head? = some m) :
    ((Regex.group i r).run s).head? =
      some { m with caps := setCap m.caps i (m.pre.drop s.pre.length) } := by
  simp [Regex.run, h]

theorem head_lit (c : Nat) (pre xs : JSString) (caps : List (Nat × JSString)) :
    ((Regex.lit c).run ⟨pre, c :: xs, caps⟩).head? = some ⟨pre ++ [c], xs, caps⟩ := by
  rw [run_lit_cons]; rfl

theorem flatMap_singleton_id {α : Type} (l : List α) : l.flatMap (fun t => [t]) = l := by
  induction l with
  | nil => rfl
  | cons a l ih => simp [ih]

theorem head_starLoop_chars {p : Nat → Bool} (ys rest pre : JSString)
    (caps : List (Nat × JSString)) (fuel : Nat) (hys : ∀ y ∈ ys, p y = true)
    (hrest : ∀ x xs, rest = x :: xs → p x = false) (hfuel : ys.length ≤ fuel) :
    (starLoop (stepChar p) fuel ⟨pre, ys ++ rest, caps⟩).head? =
      some ⟨pre ++ ys, rest, caps⟩ := by
  have := starLoop_greedy p (fun t => [t]) rest hrest caps ys pre fuel hys hfuel (by simp)
  simpa [flatMap_singleton_id] using this

theorem head_star_chars {r : Regex} {p : Nat → Bool} (hr : r.run = stepChar p)
    (ys rest pre : JSString) (caps : List (Nat × JSString)) (hys : ∀ y ∈ ys, p y = true)
    (hrest : ∀ x xs, rest = x :: xs → p x = false) :
    ((Regex.star r).run ⟨pre, ys ++ rest, caps⟩).head? = some ⟨pre ++ ys, rest, caps⟩ := by
  simp only [Regex.run, hr]
  exact head_starLoop_chars ys rest pre caps _ hys hrest (by simp)

theorem head_plus_chars {r : Regex} {p : Nat → Bool} (hr : r.run = stepChar p)
    (ys rest pre : JSString) (caps : List (Nat × JSString)) (hne : ys ≠ [])
    (hys : ∀ y ∈ ys, p y = true) (hrest : ∀ x xs, rest = x :: xs → p x = false) :
    ((Regex.plus r).run ⟨pre, ys ++ rest, caps⟩).head? = some ⟨pre ++ ys, rest, caps⟩ := by
  cases ys with
  | nil => exact absurd rfl hne
  | cons y ys =>
    simp only [Regex.run, hr, List.cons_append, stepChar_cons (hys y (by simp)),
      List.flatMap_cons, List.flatMap_nil, List.append_nil]
    have := head_starLoop_chars ys rest (pre ++ [y]) caps (ys ++ rest).length
      (fun z hz => hys z (by simp [hz])) hrest (by simp)
    simpa using this

theorem run_lit_eq (c : Nat) : (Regex.lit c).run = stepChar (fun x => x = c) := by
  funext s; simp [Regex.run]

theorem run_letters_eq : letters.run = stepChar isLetter := by
  funext s
  have : inRanges [(0x41, 0x5A), (0x61, 0x7A)] = isLetter := by
    funext c; simp [inRanges, isLetter]
  simp [letters, Regex.run, this]

theorem run_alnum_eq : alnum.run = stepChar isAlnum := by
  funext s
  have : inRanges [(0x41, 0x5A), (0x61, 0x7A), (0x30, 0x39)] = isAlnum := by
    funext c; simp [inRanges, isAlnum, isLetter, Bool.or_assoc]
  simp [alnum, Regex.run, this]

theorem find_filter_ne (caps : List (Nat × JSString)) (i j : Nat) (h : i ≠ j) :
    (caps.filter (fun c => c.1 ≠ i)).find? (fun c => c.1 = j) =
      caps.find? (fun c => c.1 = j) := by
  induction caps with
  | nil => rfl
  | cons c cs ih =>
    by_cases hc : c.1 = i
    · have hcj : ¬ c.1 = j := fun e => h (hc.symm.trans e)
      rw [List.filter_cons_of_neg (by simpa using hc),
        List.find?_cons_of_neg _ (by simpa using hcj), ih]
    · rw [List.filter_cons_of_pos (by simpa using hc)]
      by_cases hcj : c.1 = j
      · rw [List.find?_cons_of_pos _ (by simpa using hcj),
          List.find?_cons_of_pos _ (by simpa using hcj)]
      · rw [List.find?_cons_of_neg _ (by simpa using hcj),
          List.find?_cons_of_neg _ (by simpa using hcj), ih]

theorem capture_setCap (caps : List (Nat × JSString)) (i j : Nat) (v : JSString) :
    capture (setCap caps i v) j = if i = j then some v else capture caps j := by
  by_cases h : i = j
  · simp [capture, setCap, h]
  · simp only [capture, setCap, if_neg h]
    rw [List.find?_cons_of_neg _ (by simpa using h), find_filter_ne caps i j h]

theorem starLoop_ne_nil (step : MState → List MState) (fuel : Nat) (s : MState) :
    starLoop step fuel s ≠ [] := by
  cases fuel <;> simp [starLoop]

theorem starLoop_halt {step : MState → List MState} {s : MState} (h : step s = [])
    (fuel : Nat) : starLoop step fuel s = [s] := by
  cases fuel <;> simp [starLoop, h]

theorem starLoop_head_step {step : MState → List MState} {s m : MState} (fuel : Nat)
    (h : (step s).head? = some m) (hlt : m.rest.length < s.rest.length) :
    (starLoop step (fuel + 1) s).head? = (starLoop step fuel m).head? := by
  cases hl : step s with
  | nil => simp [hl] at h
  | cons x xs =>
    simp only [hl, List.head?_cons, Option.some.injEq] at h
    subst h
    simp only [starLoop, hl]
    rw [List.filter_cons_of_pos (by simpa using hlt)]
    simp only [List.flatMap_cons, List.head?_append]
    cases hh : starLoop step fuel x with
    | nil => exact absurd hh (starLoop_ne_nil _ _ _)
    | cons a as => simp

/-- The alternatives of one item of the brace list after the first: a comma and a name. -/
theorem head_item (n rest pre : JSString) (caps : List (Nat × JSString)) (hne : n ≠ [])
    (hn : ∀ x ∈ n, isAlnum x = true) (hrest : ∀ x xs, rest = x :: xs → isAlnum x = false) :
    ((Regex.group 3 (.seq (.lit 0x2C) (.plus alnum))).run ⟨pre, 0x2C :: (n ++ rest), caps⟩).head?
      = some ⟨pre ++ [0x2C] ++ n, rest, setCap caps 3 (0x2C :: n)⟩ := by
  have h := head_group 3 (head_seq (head_lit 0x2C pre (n ++ rest) caps)
    (head_plus_chars run_alnum_eq n rest (pre ++ [0x2C]) caps hne hn hrest))
  rw [h]
  simp

theorem item_halt (pre tail : JSString) (caps : List (Nat × JSString)) :
    (Regex.group 3 (.seq (.lit 0x2C) (.plus alnum))).run ⟨pre, 0x7D :: tail, caps⟩ = [] := by
  simp [Regex.run, stepChar]

theorem items_stop (ns : List JSString) (tail : JSString) :
    ∀ x xs, ns.flatMap (fun m => 0x2C :: m) ++ 0x7D :: tail = x :: xs → isAlnum x = false := by
  intro x xs h
  cases ns with
  | nil =>
    simp at h
    rw [← h.1]
    decide
  | cons n ns =>
    simp at h
    rw [← h.1]
    decide

theorem head_items (tail : JSString) :
    ∀ (ns : List JSString) (pre : JSString) (caps : List (Nat × JSString)) (fuel : Nat),
      (∀ n ∈ ns, n ≠ [] ∧ ∀ x ∈ n, isAlnum x = true) → ns.length ≤ fuel →
      ∃ caps', (starLoop (Regex.group 3 (.seq (.lit 0x2C) (.plus alnum))).run fuel
          ⟨pre, ns.flatMap (fun m => 0x2C :: m) ++ 0x7D :: tail, caps⟩).head? =
          some ⟨pre ++ ns.flatMap (fun m => 0x2C :: m), 0x7D :: tail, caps'⟩ ∧
        ∀ j, j ≠ 3 → capture caps' j = capture caps j := by
  intro ns
  induction ns with
  | nil =>
    intro pre caps fuel _ _
    refine ⟨caps, ?_, fun _ _ => rfl⟩
    simp [starLoop_halt (item_halt pre tail caps)]
  | cons n ns ih =>
    intro pre caps fuel hns hfuel
    obtain ⟨f, rfl⟩ : ∃ f, fuel = f + 1 := ⟨fuel - 1, by simp at hfuel; omega⟩
    obtain ⟨hne, hn⟩ := hns n (by simp)
    obtain ⟨caps', hhead, hcaps⟩ := ih (pre ++ [0x2C] ++ n) (setCap caps 3 (0x2C :: n)) f
      (fun m hm => hns m (by simp [hm])) (by simp at hfuel; omega)
    refine ⟨caps', ?_, ?_⟩
    · have hitem := head_item n (ns.flatMap (fun m => 0x2C :: m) ++ 0x7D :: tail) pre caps
        hne hn (items_stop ns tail)
      have hshape : (n :: ns).flatMap (fun m => 0x2C :: m) ++ 0x7D :: tail =
          0x2C :: (n ++ (ns.flatMap (fun m => 0x2C :: m) ++ 0x7D :: tail)) := by simp
      rw [hshape, starLoop_head_step f hitem
        (by simp only [List.length_cons, List.length_append]; omega), hhead]
      simp
    · intro j hj
      rw [hcaps j hj, capture_setCap, if_neg (Ne.symm hj)]

theorem items_length (ns : List JSString) :
    ns.length ≤ (ns.flatMap (fun m => 0x2C :: m)).length := by
  induction ns with
  | nil => simp
  | cons n ns ih =>
    simp only [List.flatMap_cons, List.length_append, List.length_cons]
    omega

theorem join_comma (n : JSString) (ns : List JSString) :
    join [0x2C] (n :: ns) = n ++ ns.flatMap (fun m => 0x2C :: m) := by
  induction ns generalizing n with
  | nil => simp [join]
  | cons m ns ih =>
    simp only [join, List.flatMap_cons] at ih ⊢
    rw [ih m]
    simp

theorem head_plus {r : Regex} {s m t : MState} (h : (r.run s).head? = some m)
    (hloop : (starLoop r.run m.rest.length m).head? = some t) :
    ((Regex.plus r).run s).head? = some t := by
  cases hl : r.run s with
  | nil => simp [hl] at h
  | cons x xs =>
    simp only [hl, List.head?_cons, Option.some.injEq] at h
    subst h
    simp only [Regex.run, hl, List.flatMap_cons, List.head?_append, hloop]
    simp

/-- The first match of the brace list: a name, then one or more items. -/
theorem head_braceList (n₁ n₂ : JSString) (ns : List JSString) (pre tail : JSString)
    (caps : List (Nat × JSString))
    (hns : ∀ n ∈ n₁ :: n₂ :: ns, n ≠ [] ∧ ∀ x ∈ n, isAlnum x = true) :
    ∃ caps', ((Regex.group 2 (.seq (.plus alnum)
        (.plus (.group 3 (.seq (.lit 0x2C) (.plus alnum)))))).run
        ⟨pre, join [0x2C] (n₁ :: n₂ :: ns) ++ 0x7D :: tail, caps⟩).head? =
        some ⟨pre ++ join [0x2C] (n₁ :: n₂ :: ns), 0x7D :: tail, caps'⟩ ∧
      capture caps' 2 = some (join [0x2C] (n₁ :: n₂ :: ns)) ∧
      capture caps' 1 = capture caps 1 := by
  obtain ⟨hne₁, hn₁⟩ := hns n₁ (by simp)
  obtain ⟨hne₂, hn₂⟩ := hns n₂ (by simp)
  have hrest : ∀ m ∈ ns, m ≠ [] ∧ ∀ x ∈ m, isAlnum x = true :=
    fun m hm => hns m (by simp [hm])
  have hfirst := head_plus_chars run_alnum_eq n₁
    ((n₂ :: ns).flatMap (fun m => 0x2C :: m) ++ 0x7D :: tail) pre caps hne₁ hn₁
    (items_stop (n₂ :: ns) tail)
  have hitem := head_item n₂ (ns.flatMap (fun m => 0x2C :: m) ++ 0x7D :: tail) (pre ++ n₁) caps
    hne₂ hn₂ (items_stop ns tail)
  obtain ⟨caps', hloop, hcaps⟩ := head_items tail ns (pre ++ n₁ ++ [0x2C] ++ n₂)
    (setCap caps 3 (0x2C :: n₂)) (ns.flatMap (fun m => 0x2C :: m) ++ 0x7D :: tail).length hrest
    (by have := items_length ns; simp only [List.length_append, List.length_cons]; omega)
  have hshape : (n₂ :: ns).flatMap (fun m => 0x2C :: m) ++ 0x7D :: tail =
      0x2C :: (n₂ ++ (ns.flatMap (fun m => 0x2C :: m) ++ 0x7D :: tail)) := by simp
  have hplus := head_plus hitem hloop
  rw [← hshape] at hplus
  have hseq := head_group 2 (head_seq hfirst hplus)
  refine ⟨setCap caps' 2 (join [0x2C] (n₁ :: n₂ :: ns)), ?_, ?_, ?_⟩
  · rw [join_comma, List.append_assoc, hseq]
    simp
  · rw [capture_setCap, if_pos rfl]
  · rw [capture_setCap, if_neg (by decide), hcaps 1 (by decide), capture_setCap,
      if_neg (by decide)]

/-- The first match of the name portion of a query-bearing segment. -/
theorem head_namePortion (lb rb : Nat) (ls pre tail : JSString) (caps : List (Nat × JSString))
    (hls : ls ≠ []) (hl : ∀ x ∈ ls, isLetter x = true) :
    ((Regex.group 1 (.seq (.star (.lit 0x5B)) (.seq (.plus letters) (.star (.lit 0x5D))))).run
        ⟨pre, List.replicate lb 0x5B ++ (ls ++ (List.replicate rb 0x5D ++ 0x3F :: tail)),
          caps⟩).head? =
      some ⟨pre ++ (List.replicate lb 0x5B ++ ls ++ List.replicate rb 0x5D), 0x3F :: tail,
        setCap caps 1 (List.replicate lb 0x5B ++ ls ++ List.replicate rb 0x5D)⟩ := by
  have h₁ := head_star_chars (run_lit_eq 0x5B) (List.replicate lb 0x5B)
    (ls ++ (List.replicate rb 0x5D ++ 0x3F :: tail)) pre caps
    (by intro y hy; simp [List.eq_of_mem_replicate hy])
    (by
      intro x xs h
      cases ls with
      | nil => exact absurd rfl hls
      | cons l ls =>
        simp only [List.cons_append, List.cons.injEq] at h
        have := hl l (by simp)
        rw [h.1] at this
        simp only [decide_eq_false_iff_not]
        intro hx
        rw [hx] at this
        simp [isLetter] at this)
  have h₂ := head_plus_chars run_letters_eq ls (List.replicate rb 0x5D ++ 0x3F :: tail)
    (pre ++ List.replicate lb 0x5B) caps hls hl
    (by
      intro x xs h
      cases rb with
      | zero =>
        simp only [List.replicate_zero, List.nil_append, List.cons.injEq] at h
        rw [← h.1]; decide
      | succ k =>
        simp only [List.replicate_succ, List.cons_append, List.cons.injEq] at h
        rw [← h.1]; decide)
  have h₃ := head_star_chars (run_lit_eq 0x5D) (List.replicate rb 0x5D) (0x3F :: tail)
    (pre ++ List.replicate lb 0x5B ++ ls) caps
    (by intro y hy; simp [List.eq_of_mem_replicate hy])
    (by
      intro x xs h
      simp only [List.cons.injEq] at h
      rw [← h.1]; decide)
  rw [head_group 1 (head_seq h₁ (head_seq h₂ h₃))]
  simp

/-- The pattern of a query-bearing segment matches a name portion followed by a brace list
of two or more names, and captures the two. -/
theorem queryComponentPattern_exec_query (lb rb : Nat) (ls n₁ n₂ : JSString)
    (ns : List JSString) (hls : ls ≠ []) (hl : ∀ x ∈ ls, isLetter x = true)
    (hns : ∀ n ∈ n₁ :: n₂ :: ns, n ≠ [] ∧ ∀ x ∈ n, isAlnum x = true) :
    ∃ m, queryComponentPattern.exec
        (List.replicate lb 0x5B ++ ls ++ List.replicate rb 0x5D ++ js "?\x7b" ++
          join (js ",") (n₁ :: n₂ :: ns) ++ js "\x7d") = some m ∧
      capture m 1 = some (List.replicate lb 0x5B ++ ls ++ List.replicate rb 0x5D) ∧
      capture m 2 = some (join (js ",") (n₁ :: n₂ :: ns)) := by
  have hname := head_namePortion lb rb ls [] (0x7B :: (join [0x2C] (n₁ :: n₂ :: ns) ++ [0x7D]))
    [] hls hl
  obtain ⟨caps', hlist, hc₂, hc₁⟩ := head_braceList n₁ n₂ ns
    ([] ++ (List.replicate lb 0x5B ++ ls ++ List.replicate rb 0x5D) ++ [0x3F] ++ [0x7B]) []
    (setCap [] 1 (List.replicate lb 0x5B ++ ls ++ List.replicate rb 0x5D)) hns
  have hbol : (Regex.bol.run ⟨[], List.replicate lb 0x5B ++ (ls ++ (List.replicate rb 0x5D ++
      0x3F :: 0x7B :: (join [0x2C] (n₁ :: n₂ :: ns) ++ [0x7D]))), []⟩).head? =
      some ⟨[], List.replicate lb 0x5B ++ (ls ++ (List.replicate rb 0x5D ++
        0x3F :: 0x7B :: (join [0x2C] (n₁ :: n₂ :: ns) ++ [0x7D]))), []⟩ := by
    rw [run_bol_start]; rfl
  have hend : ((Regex.seq (.lit 0x7D) .eol).run
      ⟨[] ++ (List.replicate lb 0x5B ++ ls ++ List.replicate rb 0x5D) ++ [0x3F] ++ [0x7B] ++
        join [0x2C] (n₁ :: n₂ :: ns), [0x7D], caps'⟩).head? =
      some ⟨[] ++ (List.replicate lb 0x5B ++ ls ++ List.replicate rb 0x5D) ++ [0x3F] ++ [0x7B] ++
        join [0x2C] (n₁ :: n₂ :: ns) ++ [0x7D], [], caps'⟩ :=
    head_seq (head_lit 0x7D _ [] caps') (by rw [run_eol_nil]; rfl)
  have hrun := head_seq hbol (head_seq hname (head_seq (head_lit 0x3F _ _ _)
    (head_seq (head_lit 0x7B _ _ _) (head_seq hlist hend))))
  have hinput : List.replicate lb 0x5B ++ ls ++ List.replicate rb 0x5D ++ js "?\x7b" ++
      join (js ",") (n₁ :: n₂ :: ns) ++ js "\x7d" =
      List.replicate lb 0x5B ++ (ls ++ (List.replicate rb 0x5D ++
        0x3F :: 0x7B :: (join [0x2C] (n₁ :: n₂ :: ns) ++ [0x7D]))) := by
    have h₁ : js "?\x7b" = [0x3F, 0x7B] := by decide
    have h₂ : js "\x7d" = [0x7D] := by decide
    have h₃ : js "," = [0x2C] := by decide
    rw [h₁, h₂, h₃]
    simp
  have hexec := execAt_of_head hrun
  rw [hinput]
  refine ⟨_, hexec, ?_, ?_⟩
  · rw [capture_setCap, if_neg (by decide), hc₁, capture_setCap, if_pos rfl]
  · rw [capture_setCap, if_neg (by decide), hc₂]
    rfl

theorem makeURLLoop_query_step (params : Params) (component name list : JSString)
    (rest path queryPath : List JSString)
    (h : ∃ m, queryComponentPattern.exec component = some m ∧ capture m 1 = some name ∧
      capture m 2 = some list) :
    makeURLLoop params (component :: rest) path queryPath =
      match parseURLComponent name params with
      | .error e => .error e
      | .ok seg =>
        match mapExcept (queryPair params) (split 0x2C list) with
        | .error e => .error e
        | .ok pairs => makeURLLoop params rest (path ++ [seg]) pairs := by
  obtain ⟨m, hm, h₁, h₂⟩ := h
  have htest : queryComponentPattern.test component = true := by simp [Regex.test, hm]
  have hkey : captureKey m 1 = name := by simp [captureKey, h₁]
  simp only [makeURLLoop, htest, if_true, hm, hkey, h₂]

theorem makeURLLoop_append (params : Params) :
    ∀ (a b path queryPath : List JSString),
      makeURLLoop params (a ++ b) path queryPath =
        match makeURLLoop params a path queryPath with
        | .error e => .error e
        | .ok r => makeURLLoop params b r.1 r.2 := by
  intro a
  induction a with
  | nil => intro b path queryPath; simp [makeURLLoop]
  | cons c cs ih =>
    intro b path queryPath
    simp only [List.cons_append, makeURLLoop]
    split
    · split
      · rfl
      · split
        · rfl
        · split
          · rfl
          · split
            · rfl
            · exact ih _ _ _
    · split
      · rfl
      · exact ih _ _ _

theorem join_mem {sep : JSString} {l : List JSString} {c : Nat} (h : c ∈ join sep l) :
    c ∈ sep ∨ ∃ a ∈ l, c ∈ a := by
  induction l with
  | nil => simp [join] at h
  | cons a rest ih =>
    cases rest with
    | nil => exact Or.inr ⟨a, by simp, by simpa [join] using h⟩
    | cons b rest =>
      simp only [join, List.mem_append] at h
      rcases h with (h | h) | h
      · exact Or.inr ⟨a, by simp, h⟩
      · exact Or.inl h
      · rcases ih h with h' | ⟨x, hx, hcx⟩
        · exact Or.inl h'
        · exact Or.inr ⟨x, List.mem_cons_of_mem _ hx, hcx⟩

theorem isAlnum_ne {c : Nat} (h : isAlnum c = true) : c ≠ 0x2C ∧ c ≠ 0x2F := by
  simp only [isAlnum, isLetter, Bool.or_eq_true, Bool.and_eq_true, decide_eq_true_eq] at h
  omega

theorem isLetter_ne {c : Nat} (h : isLetter c = true) : c ≠ 0x2F := by
  simp only [isLetter, Bool.or_eq_true, Bool.and_eq_true, decide_eq_true_eq] at h
  omega

theorem querySegment_no_slash (lb rb : Nat) (ls : JSString) (names : List JSString)
    (hl : ∀ x ∈ ls, isLetter x = true) (hns : ∀ n ∈ names, ∀ x ∈ n, isAlnum x = true) :
    0x2F ∉ querySegment (namePortion lb rb ls) names := by
  intro h
  simp only [querySegment, namePortion, List.mem_append] at h
  rcases h with ((((h | h) | h) | h) | h) | h
  · have := List.eq_of_mem_replicate h
    omega
  · exact isLetter_ne (hl _ h) rfl
  · have := List.eq_of_mem_replicate h
    omega
  · revert h; decide
  · rcases join_mem h with h | ⟨n, hn, hx⟩
    · revert h; decide
    · exact (isAlnum_ne (hns n hn _ hx)).2 rfl
  · revert h; decide

theorem mapExcept_queryPair (params : Params) :
    ∀ (names values : List JSString),
      mapExcept (fun n => encodeURIComponent (params.get n)) names = .ok values →
      mapExcept (queryPair params) names =
        .ok (List.zipWith (fun n v => n ++ js "=" ++ v) names values) := by
  intro names
  induction names with
  | nil =>
    intro values h
    simp [mapExcept] at h ⊢
  | cons n ns ih =>
    intro values h
    simp only [mapExcept] at h ⊢
    cases hv : encodeURIComponent (params.get n) with
    | error e => simp [hv] at h
    | ok v =>
      simp only [hv] at h
      cases hvs : mapExcept (fun n => encodeURIComponent (params.get n)) ns with
      | error e => simp [hvs] at h
      | ok vs =>
        simp only [hvs, Except.ok.injEq] at h
        subst h
        simp [queryPair, hv, ih vs hvs]

/-! ## Flattened headers and the MIME type -/

theorem get_setOwn (result : List (JSString × JSString)) (key value name : JSString) :
    Headers.get (setOwn result key value) name =
      if key = name then some value else Headers.get result name := by
  induction result with
  | nil => simp [setOwn, Headers.get]
  | cons kv rest ih =>
    obtain ⟨k, v⟩ := kv
    by_cases hk : k = key
    · subst hk
      simp only [setOwn, if_true, Headers.get]
      by_cases hn : k = name
      · simp [hn]
      · simp [hn]
    · simp only [setOwn, if_neg hk, Headers.get, ih]
      by_cases hn : k = name
      · subst hn
        have hkn : ¬ key = k := fun e => hk e.symm
        simp [hkn]
      · simp [hn]

theorem get_foldl_setProperty (name : JSString) (hname : name ≠ js "__proto__") :
    ∀ (headers : Headers) (result : List (JSString × JSString)),
      Headers.get (headers.foldl (fun result kv => setProperty result kv.1 kv.2) result) name =
        match Headers.get headers.reverse name with
        | some v => some v
        | none => Headers.get result name := by
  intro headers
  induction headers using List.reverseRecOn with
  | nil => intro result; simp [Headers.get]
  | append_singleton hs kv ih =>
    intro result
    obtain ⟨k, v⟩ := kv
    rw [List.foldl_append, List.reverse_append]
    simp only [List.foldl_cons, List.foldl_nil, List.reverse_cons, List.reverse_nil,
      List.nil_append, List.singleton_append, Headers.get]
    by_cases hk : k = name
    · subst hk
      simp only [setProperty, if_neg hname, get_setOwn, if_true]
    · rw [if_neg hk]
      by_cases hp : k = js "__proto__"
      · simp only [setProperty, if_pos hp]
        exact ih result
      · simp only [setProperty, if_neg hp, get_setOwn, if_neg hk]
        exact ih result

theorem indexOf_take (c : Nat) :
    ∀ (s : JSString) (i : Nat), indexOf c s = some i → s.take i = s.takeWhile (· ≠ c) := by
  intro s
  induction s with
  | nil => intro i h; simp [indexOf] at h
  | cons x xs ih =>
    intro i h
    by_cases hx : x = c
    · simp only [indexOf, if_pos hx, Option.some.injEq] at h
      subst h
      rw [List.takeWhile_cons_of_neg (by simpa using hx)]
      rfl
    · simp only [indexOf, if_neg hx, Option.map_eq_some'] at h
      obtain ⟨j, hj, rfl⟩ := h
      rw [List.takeWhile_cons_of_pos (by simpa using hx), List.take_succ_cons, ih j hj]

theorem indexOf_none (c : Nat) :
    ∀ (s : JSString), indexOf c s = none → s.takeWhile (· ≠ c) = s := by
  intro s
  induction s with
  | nil => intro _; rfl
  | cons x xs ih =>
    intro h
    by_cases hx : x = c
    · simp [indexOf, hx] at h
    · simp only [indexOf, if_neg hx, Option.map_eq_none'] at h
      rw [List.takeWhile_cons_of_pos (by simpa using hx), ih h]

theorem parseMimeType_some (contentType : JSString) :
    parseMimeType (some contentType) = some (contentType.takeWhile (· ≠ 0x3B)) := by
  simp only [parseMimeType]
  cases h : indexOf 0x3B contentType with
  | none => simp only; rw [indexOf_none _ _ h]
  | some i => simp only; rw [indexOf_take _ _ _ h]

theorem handleResponse_ok {β : Type} (res : Response β)
    (hs : res.status = 200 ∨ res.status = 304) :
    handleResponse res =
      if parseMimeType (res.headers.get (js "content-type")) = some (js "application/json")
      then
        match res.json with
        | .error reason => .error (.rejected reason)
        | .ok responseBody => .ok ⟨parseHeaders res.headers, some responseBody⟩
      else .ok ⟨parseHeaders res.headers, none⟩ := by
  have hn : ¬ (res.status ≠ 200 ∧ res.status ≠ 304) := by omega
  simp only [handleResponse, StatusCodes.OK, StatusCodes.NOT_MODIFIED]
  rw [if_neg hn]

/-! ## Query-bearing segments inside a route -/

theorem makeURLLoop_querySegment (lb rb : Nat) (ls n₁ n₂ : JSString) (ns : List JSString)
    (params : Params) (hls : ls ≠ []) (hl : ∀ x ∈ ls, isLetter x = true)
    (hns : ∀ n ∈ n₁ :: n₂ :: ns, n ≠ [] ∧ ∀ x ∈ n, isAlnum x = true)
    (rest path queryPath : List JSString) :
    makeURLLoop params
        (querySegment (namePortion lb rb ls) (n₁ :: n₂ :: ns) :: rest) path queryPath =
      match parseURLComponent (namePortion lb rb ls) params with
      | .error e => .error e
      | .ok seg =>
        match mapExcept (queryPair params) (n₁ :: n₂ :: ns) with
        | .error e => .error e
        | .ok pairs => makeURLLoop params rest (path ++ [seg]) pairs := by
  have hexec : ∃ m, queryComponentPattern.exec
      (querySegment (namePortion lb rb ls) (n₁ :: n₂ :: ns)) = some m ∧
      capture m 1 = some (namePortion lb rb ls) ∧
      capture m 2 = some (join (js ",") (n₁ :: n₂ :: ns)) :=
    queryComponentPattern_exec_query lb rb ls n₁ n₂ ns hls hl hns
  have hsplit : split 0x2C (join (js ",") (n₁ :: n₂ :: ns)) = n₁ :: n₂ :: ns :=
    split_join 0x2C _ (by simp)
      (fun n hn hmem => (isAlnum_ne ((hns n hn).2 _ hmem)).1 rfl)
  rw [makeURLLoop_query_step params _ (namePortion lb rb ls) (join (js ",") (n₁ :: n₂ :: ns))
    rest path queryPath hexec, hsplit]

theorem makeURLLoop_path_length (params : Params) :
    ∀ (comps path queryPath path' queryPath' : List JSString),
      makeURLLoop params comps path queryPath = .ok (path', queryPath') →
      ∃ ext, path' = path ++ ext ∧ ext.length = comps.length := by
  intro comps
  induction comps with
  | nil =>
    intro path queryPath path' queryPath' h
    simp only [makeURLLoop, Except.ok.injEq, Prod.mk.injEq] at h
    exact ⟨[], by simp [h.1], rfl⟩
  | cons c cs ih =>
    intro path queryPath path' queryPath' h
    simp only [makeURLLoop] at h
    split at h
    · split at h
      · cases h
      · split at h
        · cases h
        · split at h
          · cases h
          · split at h
            · cases h
            · obtain ⟨ext, hext, hlen⟩ := ih _ _ _ _ h
              rw [List.append_assoc] at hext
              exact ⟨_, hext, by simp [hlen]⟩
    · split at h
      · cases h
      · obtain ⟨ext, hext, hlen⟩ := ih _ _ _ _ h
        rw [List.append_assoc] at hext
        exact ⟨_, hext, by simp [hlen]⟩

theorem isLetter_unreserved {c : Nat} (h : isLetter c = true) : isUnreserved c = true := by
  simp only [isLetter, Bool.or_eq_true, Bool.and_eq_true, decide_eq_true_eq] at h
  simp only [isUnreserved, Bool.or_eq_true, Bool.and_eq_true, decide_eq_true_eq]
  omega

theorem isAlnum_unreserved {c : Nat} (h : isAlnum c = true) : isUnreserved c = true := by
  simp only [isAlnum, isLetter, Bool.or_eq_true, Bool.and_eq_true, decide_eq_true_eq] at h
  simp only [isUnreserved, Bool.or_eq_true, Bool.and_eq_true, decide_eq_true_eq]
  omega

theorem isLetter_not_lineTerminator {c : Nat} (h : isLetter c = true) :
    isLineTerminator c = false := by
  simp only [isLetter, Bool.or_eq_true, Bool.and_eq_true, decide_eq_true_eq] at h
  simp only [isLineTerminator, Bool.or_eq_false_iff, decide_eq_false_iff_not]
  omega

theorem parseURLComponent_unreserved (component : JSString) (params : Params)
    (h : ∀ x ∈ component, isUnreserved x = true) :
    parseURLComponent component params = .ok component := by
  rw [parseURLComponent_literal _ _ (unreserved_component h).2,
    encodeURIComponentStr_unreserved component h]

theorem join_question (a b : JSString) : join (js "?") [a, b] = a ++ js "?" ++ b := rfl

/-! ## A brace list needs a comma -/

theorem Extends.mem_pre {s t : MState} (h : Extends s t) {x : Nat} (hx : x ∈ s.pre) :
    x ∈ t.pre := by
  obtain ⟨u, hu, -⟩ := h
  rw [hu]
  exact List.mem_append_left _ hx

theorem run_plus_mem {r : Regex} {s t : MState} (h : t ∈ (Regex.plus r).run s) :
    ∃ m, m ∈ r.run s ∧ Extends m t := by
  simp only [Regex.run, List.mem_flatMap] at h
  obtain ⟨m, hm, ht⟩ := h
  exact ⟨m, hm, starLoop_extends (run_extends r) _ m t ht⟩

theorem run_group_mem {r : Regex} {i : Nat} {s t : MState} (h : t ∈ (Regex.group i r).run s) :
    ∃ m, m ∈ r.run s ∧ t.pre = m.pre ∧ t.rest = m.rest := by
  simp only [Regex.run, List.mem_map] at h
  obtain ⟨m, hm, rfl⟩ := h
  exact ⟨m, hm, rfl, rfl⟩

theorem queryComponentPattern_test_comma {input : JSString}
    (h : queryComponentPattern.test input = true) : 0x2C ∈ input := by
  by_contra hne
  have hrun : (Regex.cat [
        .group 1 (.cat [.star (.lit 0x5B), .plus letters, .star (.lit 0x5D)]),
        .lit 0x3F, .lit 0x7B,
        .group 2 (.cat [.plus alnum, .plus (.group 3 (.cat [.lit 0x2C, .plus alnum]))]),
        .lit 0x7D, .eol]).run ⟨[], input, []⟩ = [] := by
    apply List.eq_nil_iff_forall_not_mem.mpr
    intro t ht
    have hinput := run_start_pre ht
    simp only [Regex.cat] at ht
    obtain ⟨m₁, -, ht⟩ := run_seq_mem ht
    obtain ⟨m₂, -, ht⟩ := run_seq_mem ht
    obtain ⟨m₃, -, ht⟩ := run_seq_mem ht
    obtain ⟨m₄, hm₄, ht⟩ := run_seq_mem ht
    obtain ⟨g, hg, hpre, -⟩ := run_group_mem hm₄
    obtain ⟨a, -, hg⟩ := run_seq_mem hg
    obtain ⟨b, hb, hbg⟩ := run_plus_mem hg
    obtain ⟨b', hb', hbpre, -⟩ := run_group_mem hb
    obtain ⟨c, hc, hcb⟩ := run_seq_mem hb'
    obtain ⟨x, hx, -, hcpre, -⟩ := stepChar_mem hc
    simp only [decide_eq_true_eq] at hx
    have h₁ : 0x2C ∈ c.pre := by rw [hcpre, hx]; simp
    have h₂ : 0x2C ∈ b.pre := by
      rw [hbpre]
      exact (run_extends _ _ _ hcb).mem_pre h₁
    have h₃ : 0x2C ∈ m₄.pre := by
      rw [hpre]
      exact hbg.mem_pre h₂
    have h₄ : 0x2C ∈ t.pre := (run_extends _ _ _ ht).mem_pre h₃
    exact hne (by rw [hinput]; exact List.mem_append_left _ h₄)
  have : queryComponentPattern.exec input = none := exec_bol_run_nil hrun
  simp [Regex.test, this] at h

/-! ## encodeURIComponent, one code unit at a time -/

theorem encodeURIComponentStr_cons_unreserved {c : Nat} (hc : isUnreserved c = true)
    (rest : JSString) :
    encodeURIComponentStr (c :: rest) = (encodeURIComponentStr rest).map (c :: ·) := by
  cases rest with
  | nil => simp [encodeURIComponentStr, hc, Except.map]
  | cons d rest => simp [encodeURIComponentStr, hc]

theorem encodeURIComponentStr_cons_bmp {c : Nat} (hc : isUnreserved c = false)
    (hb : c < 0xD800 ∨ (0xE000 ≤ c ∧ c < 0x10000)) (rest : JSString) :
    encodeURIComponentStr (c :: rest) =
      (encodeURIComponentStr rest).map (percentEncode c ++ ·) := by
  cases rest with
  | nil => simp [encodeURIComponentStr, hc, hb, Except.map]
  | cons d rest => simp [encodeURIComponentStr, hc, hb]

theorem encodeURIComponentStr_append_unreserved :
    ∀ (a b : JSString), (∀ x ∈ a, isUnreserved x = true) →
      encodeURIComponentStr (a ++ b) = (encodeURIComponentStr b).map (a ++ ·) := by
  intro a
  induction a with
  | nil =>
    intro b _
    cases h : encodeURIComponentStr b <;> simp [h, Except.map]
  | cons x xs ih =>
    intro b h
    rw [List.cons_append, encodeURIComponentStr_cons_unreserved (h x (by simp)),
      ih b (fun y hy => h y (by simp [hy]))]
    cases encodeURIComponentStr b <;> simp [Except.map]

theorem encode_single_name_segment (s q : JSString) (hs : ∀ x ∈ s, isAlnum x = true)
    (hq : ∀ x ∈ q, isAlnum x = true) :
    encodeURIComponentStr (querySegment s [q]) =
      .ok (s ++ js "%3F%7B" ++ q ++ js "%7D") := by
  have hshape : querySegment s [q] = s ++ (0x3F :: 0x7B :: (q ++ [0x7D])) := by
    have h₁ : js "?\x7b" = [0x3F, 0x7B] := by decide
    have h₂ : js "\x7d" = [0x7D] := by decide
    simp [querySegment, join, h₁, h₂]
  have hend : encodeURIComponentStr [0x7D] = .ok (js "%7D") := by decide
  have h3F : percentEncode 0x3F = js "%3F" := by decide
  have h7B : percentEncode 0x7B = js "%7B" := by decide
  rw [hshape, encodeURIComponentStr_append_unreserved s _
      (fun x hx => isAlnum_unreserved (hs x hx)),
    encodeURIComponentStr_cons_bmp (by decide) (by decide),
    encodeURIComponentStr_cons_bmp (by decide) (by decide),
    encodeURIComponentStr_append_unreserved q _
      (fun x hx => isAlnum_unreserved (hq x hx)), hend, h3F, h7B]
  have h₃ : js "%3F%7B" = js "%3F" ++ js "%7B" := by decide
  simp [Except.map, h₃]

/-! ## The errors of makeURL -/

theorem componentPattern_exec_of_test {component : JSString}
    (h : componentPattern.test component = true) :
    ∃ m, componentPattern.exec component = some m := by
  cases hm : componentPattern.exec component with
  | none => simp [Regex.test, hm] at h
  | some m => exact ⟨m, rfl⟩

theorem parseURLComponent_ok {component : JSString} {params : Params} {seg : JSString}
    (h : parseURLComponent component params = .ok seg) :
    encodeURIComponentStr component = .ok seg ∨
      ∃ m v, componentPattern.exec component = some m ∧
        params.get (captureKey m 1) = .str v ∧ encodeURIComponentStr v = .ok seg := by
  rw [parseURLComponent_eq] at h
  split at h
  · rename_i htest
    obtain ⟨m, hm⟩ := componentPattern_exec_of_test htest
    simp only [hm] at h
    split at h
    · rename_i v hv
      exact Or.inr ⟨m, v, hm, hv, h⟩
    · cases h
  · exact Or.inl h

theorem parseURLComponent_encoded {component : JSString} {params : Params} {seg : JSString}
    (h : parseURLComponent component params = .ok seg) : ∀ x ∈ seg, isEncoded x = true := by
  rcases parseURLComponent_ok h with h' | ⟨m, v, -, -, h'⟩
  · exact encodeURIComponentStr_encoded _ _ _ (Nat.le_refl _) h'
  · exact encodeURIComponentStr_encoded _ _ _ (Nat.le_refl _) h'

/-! ## The pairs of a brace list -/

/-- The position `t` is reached from `s` by consuming code units that satisfy `p`. -/
theorem stepChar_consumes {p : Nat → Bool} {s t : MState} (h : t ∈ stepChar p s) :
    ∃ u, t.pre = s.pre ++ u ∧ s.rest = u ++ t.rest ∧ (∀ x ∈ u, p x = true) ∧
      t.caps = s.caps := by
  obtain ⟨x, hx, h₁, h₂, h₃⟩ := stepChar_mem h
  exact ⟨[x], h₂, by simp [h₁], by simpa using hx, h₃⟩

theorem starLoop_consumes {step : MState → List MState} {p : Nat → Bool}
    (hstep : ∀ s t, t ∈ step s →
      ∃ u, t.pre = s.pre ++ u ∧ s.rest = u ++ t.rest ∧ ∀ x ∈ u, p x = true) :
    ∀ (fuel : Nat) (s t : MState), t ∈ starLoop step fuel s →
      ∃ u, t.pre = s.pre ++ u ∧ s.rest = u ++ t.rest ∧ ∀ x ∈ u, p x = true := by
  intro fuel
  induction fuel with
  | zero =>
    intro s t h
    simp [starLoop] at h
    subst h
    exact ⟨[], by simp, by simp, by simp⟩
  | succ n ih =>
    intro s t h
    simp only [starLoop, List.mem_append, List.mem_flatMap, List.mem_filter,
      List.mem_singleton] at h
    rcases h with ⟨m, ⟨hm, -⟩, ht⟩ | h
    · obtain ⟨u, hu₁, hu₂, hu₃⟩ := hstep s m hm
      obtain ⟨w, hw₁, hw₂, hw₃⟩ := ih m t ht
      refine ⟨u ++ w, by simp [hw₁, hu₁], by simp [hu₂, hw₂], ?_⟩
      intro x hx
      rcases List.mem_append.mp hx with hx | hx
      · exact hu₃ x hx
      · exact hw₃ x hx
    · subst h
      exact ⟨[], by simp, by simp, by simp⟩

theorem run_consumes : ∀ (r : Regex) (s t : MState), t ∈ r.run s →
    ∃ u, t.pre = s.pre ++ u ∧ s.rest = u ++ t.rest ∧ ∀ x ∈ u, r.accepts x = true := by
  intro r
  induction r with
  | lit c =>
    intro s t h
    obtain ⟨u, h₁, h₂, h₃, -⟩ := stepChar_consumes h
    exact ⟨u, h₁, h₂, h₃⟩
  | dot =>
    intro s t h
    obtain ⟨u, h₁, h₂, h₃, -⟩ := stepChar_consumes h
    exact ⟨u, h₁, h₂, h₃⟩
  | cls ranges =>
    intro s t h
    obtain ⟨u, h₁, h₂, h₃, -⟩ := stepChar_consumes h
    exact ⟨u, h₁, h₂, h₃⟩
  | bol =>
    intro s t h
    simp only [Regex.run] at h
    split at h
    · simp at h; subst h; exact ⟨[], by simp, by simp, by simp⟩
    · simp at h
  | eol =>
    intro s t h
    simp only [Regex.run] at h
    split at h
    · simp at h; subst h; exact ⟨[], by simp, by simp, by simp⟩
    · simp at h
  | seq a b iha ihb =>
    intro s t h
    obtain ⟨m, hm, ht⟩ := run_seq_mem h
    obtain ⟨u, hu₁, hu₂, hu₃⟩ := iha s m hm
    obtain ⟨w, hw₁, hw₂, hw₃⟩ := ihb m t ht
    refine ⟨u ++ w, by simp [hw₁, hu₁], by simp [hu₂, hw₂], ?_⟩
    intro x hx
    rcases List.mem_append.mp hx with hx | hx
    · simp [Regex.accepts, hu₃ x hx]
    · simp [Regex.accepts, hw₃ x hx]
  | star r ih =>
    intro s t h
    simp only [Regex.run] at h
    exact starLoop_consumes ih _ s t h
  | plus r ih =>
    intro s t h
    simp only [Regex.run, List.mem_flatMap] at h
    obtain ⟨m, hm, ht⟩ := h
    obtain ⟨u, hu₁, hu₂, hu₃⟩ := ih s m hm
    obtain ⟨w, hw₁, hw₂, hw₃⟩ := starLoop_consumes ih _ m t ht
    refine ⟨u ++ w, by simp [hw₁, hu₁], by simp [hu₂, hw₂], ?_⟩
    intro x hx
    rcases List.mem_append.mp hx with hx | hx
    · exact hu₃ x hx
    · exact hw₃ x hx
  | group i r ih =>
    intro s t h
    simp only [Regex.run, List.mem_map] at h
    obtain ⟨m, hm, rfl⟩ := h
    exact ih s m hm

theorem starLoop_caps {step : MState → List MState} {j : Nat}
    (hstep : ∀ s t, t ∈ step s → capture t.caps j = capture s.caps j) :
    ∀ (fuel : Nat) (s t : MState), t ∈ starLoop step fuel s →
      capture t.caps j = capture s.caps j := by
  intro fuel
  induction fuel with
  | zero =>
    intro s t h
    simp [starLoop] at h
    subst h
    rfl
  | succ n ih =>
    intro s t h
    simp only [starLoop, List.mem_append, List.mem_flatMap, List.mem_filter,
      List.mem_singleton] at h
    rcases h with ⟨m, ⟨hm, -⟩, ht⟩ | h
    · rw [ih m t ht, hstep s m hm]
    · subst h
      rfl

theorem run_caps (j : Nat) : ∀ (r : Regex) (s t : MState), j ∉ r.groups → t ∈ r.run s →
    capture t.caps j = capture s.caps j := by
  intro r
  induction r with
  | lit c =>
    intro s t _ h
    obtain ⟨-, -, -, -, hc⟩ := stepChar_consumes h
    rw [hc]
  | dot =>
    intro s t _ h
    obtain ⟨-, -, -, -, hc⟩ := stepChar_consumes h
    rw [hc]
  | cls ranges =>
    intro s t _ h
    obtain ⟨-, -, -, -, hc⟩ := stepChar_consumes h
    rw [hc]
  | bol =>
    intro s t _ h
    simp only [Regex.run] at h
    split at h
    · simp at h; subst h; rfl
    · simp at h
  | eol =>
    intro s t _ h
    simp only [Regex.run] at h
    split at h
    · simp at h; subst h; rfl
    · simp at h
  | seq a b iha ihb =>
    intro s t hj h
    simp only [Regex.groups, List.mem_append, not_or] at hj
    obtain ⟨m, hm, ht⟩ := run_seq_mem h
    rw [ihb m t hj.2 ht, iha s m hj.1 hm]
  | star r ih =>
    intro s t hj h
    simp only [Regex.run] at h
    exact starLoop_caps (fun s t => ih s t hj) _ s t h
  | plus r ih =>
    intro s t hj h
    simp only [Regex.run, List.mem_flatMap] at h
    obtain ⟨m, hm, ht⟩ := h
    rw [starLoop_caps (fun s t => ih s t hj) _ m t ht, ih s m hj hm]
  | group i r ih =>
    intro s t hj h
    simp only [Regex.groups, List.mem_cons, not_or] at hj
    simp only [Regex.run, List.mem_map] at h
    obtain ⟨m, hm, rfl⟩ := h
    simp only
    rw [capture_setCap, if_neg (Ne.symm hj.1), ih s m hj.2 hm]

theorem run_group_caps {r : Regex} {i : Nat} {s t : MState} (h : t ∈ (Regex.group i r).run s) :
    ∃ u, t.pre = s.pre ++ u ∧ (∀ x ∈ u, r.accepts x = true) ∧ capture t.caps i = some u := by
  simp only [Regex.run, List.mem_map] at h
  obtain ⟨m, hm, rfl⟩ := h
  obtain ⟨u, hu₁, -, hu₃⟩ := run_consumes r s m hm
  refine ⟨u, hu₁, hu₃, ?_⟩
  simp only
  rw [capture_setCap, if_pos rfl, hu₁]
  simp

theorem exec_bol_some {b : Regex} {input : JSString} {m : List (Nat × JSString)}
    (h : (Regex.seq .bol b).exec input = some m) :
    ∃ t, t ∈ b.run ⟨[], input, []⟩ ∧ m = setCap t.caps 0 t.pre := by
  cases hrun : b.run ⟨[], input, []⟩ with
  | nil => rw [exec_bol_run_nil hrun] at h; cases h
  | cons t ts =>
    refine ⟨t, by simp, ?_⟩
    have hhead : ((Regex.seq .bol b).run ⟨[], input, []⟩).head? = some t := by
      simp [Regex.run, hrun]
    have := execAt_of_head hhead
    rw [Regex.exec, this] at h
    simpa using h.symm

/-- A match of the query pattern captures a brace list made of alphanumeric code units and
commas. -/
theorem queryComponentPattern_captures {input : JSString} {m : List (Nat × JSString)}
    (h : queryComponentPattern.exec input = some m) :
    ∃ list, capture m 2 = some list ∧ ∀ x ∈ list, isAlnum x = true ∨ x = 0x2C := by
  have h' : (Regex.seq .bol (Regex.cat [
        .group 1 (.cat [.star (.lit 0x5B), .plus letters, .star (.lit 0x5D)]),
        .lit 0x3F, .lit 0x7B,
        .group 2 (.cat [.plus alnum, .plus (.group 3 (.cat [.lit 0x2C, .plus alnum]))]),
        .lit 0x7D, .eol])).exec input = some m := h
  obtain ⟨t, ht, rfl⟩ := exec_bol_some h'
  simp only [Regex.cat] at ht
  obtain ⟨m₁, -, ht⟩ := run_seq_mem ht
  obtain ⟨m₂, -, ht⟩ := run_seq_mem ht
  obtain ⟨m₃, -, ht⟩ := run_seq_mem ht
  obtain ⟨m₄, hm₄, ht⟩ := run_seq_mem ht
  obtain ⟨list, -, hacc, hcap⟩ := run_group_caps hm₄
  have hkeep := run_caps 2 _ m₄ t (by decide) ht
  refine ⟨list, ?_, ?_⟩
  · rw [capture_setCap, if_neg (by decide), hkeep, hcap]
  · intro x hx
    have := hacc x hx
    simp only [Regex.accepts, alnum, Bool.or_eq_true, decide_eq_true_eq] at this
    have halnum : inRanges [(0x41, 0x5A), (0x61, 0x7A), (0x30, 0x39)] = isAlnum := by
      funext c; simp [inRanges, isAlnum, isLetter, Bool.or_assoc]
    rw [halnum] at this
    rcases this with h₁ | h₁ | h₁
    · exact Or.inl h₁
    · exact Or.inr h₁
    · exact Or.inl h₁

/-! ## The shape of every result of makeURL -/

theorem mapExcept_mem {α β : Type} {f : α → Except JSError β} :
    ∀ {l : List α} {bs : List β}, mapExcept f l = .ok bs →
      ∀ b ∈ bs, ∃ a ∈ l, f a = .ok b := by
  intro l
  induction l with
  | nil =>
    intro bs h b hb
    simp only [mapExcept, Except.ok.injEq] at h
    subst h
    simp at hb
  | cons a rest ih =>
    intro bs h b hb
    simp only [mapExcept] at h
    cases ha : f a with
    | error e => simp [ha] at h
    | ok b₀ =>
      simp only [ha] at h
      cases hr : mapExcept f rest with
      | error e => simp [hr] at h
      | ok bs₀ =>
        simp only [hr, Except.ok.injEq] at h
        subst h
        simp only [List.mem_cons] at hb
        rcases hb with hb | hb
        · subst hb
          exact ⟨a, by simp, ha⟩
        · obtain ⟨x, hx, hfx⟩ := ih hr b hb
          exact ⟨x, List.mem_cons_of_mem _ hx, hfx⟩

theorem isAlnum_encoded {c : Nat} (h : isAlnum c = true) : isEncoded c = true := by
  simp [isEncoded, isAlnum_unreserved h]

/-- The code units of a query pair: those of an encoded string, and the equals sign. -/
theorem queryPair_chars {params : Params} {list qp pair : JSString}
    (hlist : ∀ x ∈ list, isAlnum x = true ∨ x = 0x2C) (hqp : qp ∈ split 0x2C list)
    (hpair : queryPair params qp = .ok pair) :
    ∀ x ∈ pair, isEncoded x = true ∨ x = 0x3D := by
  unfold queryPair at hpair
  cases hv : encodeURIComponent (params.get qp) with
  | error e => simp [hv] at hpair
  | ok v =>
    simp only [hv, Except.ok.injEq] at hpair
    subst hpair
    intro x hx
    simp only [List.mem_append] at hx
    rcases hx with (hx | hx) | hx
    · obtain ⟨hmem, hne⟩ := split_mem hqp hx
      rcases hlist x hmem with h | h
      · exact Or.inl (isAlnum_encoded h)
      · exact absurd h hne
    · right
      have he : js "=" = [0x3D] := by decide
      rw [he] at hx
      simpa using hx
    · exact Or.inl (encodeURIComponentStr_encoded _ _ v (Nat.le_refl _) hv x hx)

theorem makeURLLoop_chars (params : Params) :
    ∀ (comps path queryPath path' queryPath' : List JSString),
      makeURLLoop params comps path queryPath = .ok (path', queryPath') →
      (∀ s ∈ path, ∀ x ∈ s, isEncoded x = true) →
      (∀ p ∈ queryPath, ∀ x ∈ p, isEncoded x = true ∨ x = 0x3D) →
      (∀ s ∈ path', ∀ x ∈ s, isEncoded x = true) ∧
        (∀ p ∈ queryPath', ∀ x ∈ p, isEncoded x = true ∨ x = 0x3D) := by
  intro comps
  induction comps with
  | nil =>
    intro path queryPath path' queryPath' h hpath hquery
    simp only [makeURLLoop, Except.ok.injEq, Prod.mk.injEq] at h
    rw [← h.1, ← h.2]
    exact ⟨hpath, hquery⟩
  | cons c cs ih =>
    intro path queryPath path' queryPath' h hpath hquery
    have hext : ∀ seg, (∀ x ∈ seg, isEncoded x = true) →
        ∀ s ∈ path ++ [seg], ∀ x ∈ s, isEncoded x = true := by
      intro seg hseg s hs
      simp only [List.mem_append, List.mem_singleton] at hs
      rcases hs with hs | hs
      · exact hpath s hs
      · rw [hs]; exact hseg
    simp only [makeURLLoop] at h
    split at h
    · split at h
      · cases h
      · rename_i m hm
        split at h
        · cases h
        · rename_i seg hseg
          split at h
          · cases h
          · rename_i list hlist
            split at h
            · cases h
            · rename_i pairs hpairs
              obtain ⟨list', hcap, hchars⟩ := queryComponentPattern_captures hm
              rw [hlist] at hcap
              cases hcap
              refine ih _ _ _ _ h (hext seg (parseURLComponent_encoded hseg)) ?_
              intro p hp
              obtain ⟨qp, hqp, hq⟩ := mapExcept_mem hpairs p hp
              exact queryPair_chars hchars hqp hq
    · split at h
      · cases h
      · rename_i seg hseg
        exact ih _ _ _ _ h (hext seg (parseURLComponent_encoded hseg)) hquery

theorem length_split (sep : Nat) (s : JSString) :
    (split sep s).length = List.count sep s + 1 := by
  induction s with
  | nil => rfl
  | cons c cs ih =>
    simp only [split]
    split
    · rename_i hc
      rw [List.length_cons, ih, hc, List.count_cons_self]
    · rename_i hc
      rw [List.count_cons_of_ne (Ne.symm hc)]
      cases hs : split sep cs with
      | nil => exact absurd hs (split_ne_nil sep cs)
      | cons h t =>
        rw [hs] at ih
        simpa using ih

theorem count_join (sep : Nat) :
    ∀ (l : List JSString), l ≠ [] → (∀ s ∈ l, sep ∉ s) →
      List.count sep (join [sep] l) + 1 = l.length := by
  intro l
  induction l with
  | nil => intro h; exact absurd rfl h
  | cons a rest ih =>
    intro _ hsep
    have ha : List.count sep a = 0 := List.count_eq_zero_of_not_mem (hsep a (by simp))
    cases rest with
    | nil => simp [join, ha]
    | cons b rest =>
      have := ih (by simp) (fun s hs => hsep s (by simp [hs]))
      simp only [join, List.count_append, ha, List.count_singleton_self, List.length_cons]
        at this ⊢
      omega

theorem makeURL_shape {route : JSString} {params : Params} {url : JSString}
    (h : makeURL route params = .ok url) :
    ∃ path queryPath, url = join (js "/") path ++ js "?" ++ join (js "&") queryPath ∧
      path.length = (split 0x2F route).length ∧
      (∀ s ∈ path, ∀ x ∈ s, isEncoded x = true) ∧
      (∀ p ∈ queryPath, ∀ x ∈ p, isEncoded x = true ∨ x = 0x3D) := by
  unfold makeURL at h
  cases hparts : makeURLParts route params with
  | error e => simp [hparts] at h
  | ok r =>
    obtain ⟨path, queryPath⟩ := r
    simp only [hparts, Except.ok.injEq] at h
    unfold makeURLParts at hparts
    obtain ⟨ext, hext, hlen⟩ := makeURLLoop_path_length params _ _ _ _ _ hparts
    obtain ⟨hp, hq⟩ := makeURLLoop_chars params _ _ _ _ _ hparts (by simp) (by simp)
    refine ⟨path, queryPath, ?_, ?_, hp, hq⟩
    · rw [← h]
      rfl
    · rw [hext]
      simpa using hlen

/-! ## The claims -/

/-- C1 (the code departs from the claim): a required rest segment is not expanded. The
pattern for it matches no string, so for `makeURL("files/[...names]", {names: ["a","b"]})`
the segment is taken as a named segment with the name `...names` and the call throws
`Invalid URL parameter: ...names` instead of returning `files/a/b?`. -/
theorem c1_required_rest_not_expanded :
    makeURL (js "files/[...names]") [(js "names", .arr [js "a", js "b"])] =
        .error (.error (js "Invalid URL parameter: ...names")) ∧
      makeURL (js "files/[...names]") [(js "names", .arr [js "a", js "b"])] ≠
        .ok (js "files/a/b?") ∧
      ∀ component, restComponentPattern.test component = false :=
  ⟨by decide, by decide, restComponentPattern_test⟩

/-- C2 (the code departs from the claim): an optional rest segment whose name is absent
makes `makeURL` fail. The pattern for it matches no string, so for
`makeURL("files/[[...names]]", {})` the segment is taken as a named segment with the name
`[...names]` and the call throws `Invalid URL parameter: [...names]`. -/
theorem c2_optional_rest_absent_fails :
    makeURL (js "files/[[...names]]") [] =
        .error (.error (js "Invalid URL parameter: [...names]")) ∧
      (∀ path queryPath, makeURLParts (js "files/[[...names]]") [] ≠ .ok (path, queryPath)) ∧
      ∀ component, optionalRestComponentPattern.test component = false := by
  refine ⟨by decide, ?_, optionalRestComponentPattern_test⟩
  intro path queryPath h
  have : makeURLParts (js "files/[[...names]]") [] =
      .error (.error (js "Invalid URL parameter: [...names]")) := by decide
  rw [this] at h
  cases h

/-- C3 (counterexample): the name made of a line feed is not empty and has no slash, and
the parameter object maps it to the string `v`, yet the segment `[\n]` contributes the
encoded literal `%5B%0A%5D` and not `v`: the dot of the pattern matches no line
terminator. -/
theorem c3_line_feed_name_is_literal :
    js "\n" ≠ [] ∧ 0x2F ∉ js "\n" ∧
      Params.get [(js "\n", .str (js "v"))] (js "\n") = .str (js "v") ∧
      encodeURIComponent (.str (js "v")) = .ok (js "v") ∧
      parseURLComponent (js "[\n]") [(js "\n", .str (js "v"))] = .ok (js "%5B%0A%5D") ∧
      makeURL (js "[\n]") [(js "\n", .str (js "v"))] = .ok (js "%5B%0A%5D?") := by
  decide

/-- C3 (amended): for every non-empty name `n` without a line terminator and every
parameter object with `params[n]` a string `v`, the segment `[n]` resolves to
`encodeURIComponent(v)`, and the loop of `makeURL` appends exactly that one element to the
path, which contains no slash; when `encodeURIComponent(v)` throws, so does the loop. This
holds for the segment at any place of a route. In particular
`makeURL("users/[id]", {id: "42"})` has the path `users/42`. -/
theorem c3_named_segment (n v : JSString) (params : Params) (hn : n ≠ [])
    (hlt : ∀ x ∈ n, isLineTerminator x = false) (hv : params.get n = .str v) :
    parseURLComponent (0x5B :: (n ++ [0x5D])) params = encodeURIComponent (.str v) ∧
      (∀ rest path queryPath,
        makeURLLoop params ((0x5B :: (n ++ [0x5D])) :: rest) path queryPath =
          match encodeURIComponent (.str v) with
          | .error e => .error e
          | .ok seg => makeURLLoop params rest (path ++ [seg]) queryPath) ∧
      (∀ seg, encodeURIComponent (.str v) = .ok seg → 0x2F ∉ seg) ∧
      (∀ before after path queryPath seg, 0x2F ∉ n → (∀ c ∈ before ++ after, 0x2F ∉ c) →
        makeURLLoop params before [] [] = .ok (path, queryPath) →
        encodeURIComponent (.str v) = .ok seg →
        makeURLParts (join (js "/") (before ++ (0x5B :: (n ++ [0x5D])) :: after)) params =
          makeURLLoop params after (path ++ [seg]) queryPath) ∧
      makeURLParts (js "users/[id]") [(js "id", .str (js "42"))] =
        .ok ([js "users", js "42"], []) ∧
      join (js "/") [js "users", js "42"] = js "users/42" := by
  have hp : parseURLComponent (0x5B :: (n ++ [0x5D])) params = encodeURIComponent (.str v) := by
    rw [parseURLComponent_bracket n params hn hlt, hv]
    rfl
  have hstep : ∀ rest path queryPath,
      makeURLLoop params ((0x5B :: (n ++ [0x5D])) :: rest) path queryPath =
        match encodeURIComponent (.str v) with
        | .error e => .error e
        | .ok seg => makeURLLoop params rest (path ++ [seg]) queryPath := by
    intro rest path queryPath
    rw [makeURLLoop_plain_step _ _ _ _ _ (queryComponentPattern_test_bracket n), hp]
  refine ⟨hp, hstep, ?_, ?_, by decide, by decide⟩
  · intro seg hseg hmem
    have := encodeURIComponentStr_encoded v.length v seg (Nat.le_refl _) hseg _ hmem
    simp [isEncoded, isUnreserved] at this
  · intro before after path queryPath seg hslash hcomps hbefore hseg
    have hsplit : split 0x2F (join (js "/") (before ++ (0x5B :: (n ++ [0x5D])) :: after)) =
        before ++ (0x5B :: (n ++ [0x5D])) :: after := by
      apply split_join 0x2F _ (by simp)
      intro c hc
      simp only [List.mem_append, List.mem_cons] at hc
      rcases hc with hc | hc | hc
      · exact hcomps c (by simp [hc])
      · rw [hc]
        simp only [List.mem_cons, List.mem_append, List.mem_singleton, List.not_mem_nil,
          or_false, not_or]
        exact ⟨by decide, hslash, by decide⟩
      · exact hcomps c (by simp [hc])
    unfold makeURLParts
    rw [hsplit, makeURLLoop_append, hbefore]
    simp only
    rw [hstep, hseg]

theorem c3_named_segment_witness :
    parseURLComponent (js "[id]") [(js "id", .str (js "42"))] = .ok (js "42") ∧
      makeURLParts (js "api/users/[id]/posts") [(js "id", .str (js "42"))] =
        .ok ([js "api", js "users", js "42", js "posts"], []) :=
  have h := c3_named_segment (js "id") (js "42") [(js "id", .str (js "42"))]
    (by decide) (by decide) (by decide)
  ⟨h.1, (h.2.2.2.1 [js "api", js "users"] [js "posts"] [js "api", js "users"] [] (js "42")
    (by decide) (by decide) (by decide) (by decide)).trans (by decide)⟩

/-- C5 (the code departs from the claim): for the template `files/[...names]` the call
does fail when `names` is absent and when it is the string `a`, but the error is
`Invalid URL parameter: ...names`, not `Invalid URL rest parameter: names`: no input makes
`parseURLComponent` throw the rest parameter error, because neither rest pattern matches. -/
theorem c5_rest_error_never_raised :
    makeURL (js "files/[...names]") [] =
        .error (.error (js "Invalid URL parameter: ...names")) ∧
      makeURL (js "files/[...names]") [(js "names", .str (js "a"))] =
        .error (.error (js "Invalid URL parameter: ...names")) ∧
      ∀ component params param, parseURLComponent component params ≠
        .error (.error (js "Invalid URL rest parameter: " ++ param)) := by
  refine ⟨by decide, by decide, ?_⟩
  intro component params param h
  rw [parseURLComponent_eq] at h
  split at h
  · split at h
    · cases h
    · split at h
      · rename_i value _
        have := encodeURIComponentStr_error value.length value _ (Nat.le_refl _) h
        cases this
      · simp only [Except.error.injEq, JSError.error.injEq] at h
        have := congrArg (fun l => l.drop 12) h
        simp [js, jsChars, utf16] at this
  · have := encodeURIComponentStr_error component.length component _ (Nat.le_refl _) h
    cases this

/-- C6: a segment made of a name portion and a brace list of two or more alphanumeric
names sets the query to the pairs `name=encodeURIComponent(params[name])` in brace-list
order, and its name portion is resolved as a path segment. When no later segment is
query-bearing, `makeURL` returns the joined path, a question mark and these pairs joined
by `&`; `makeURL("search?{q,limit}", {q: "a b", limit: "10"})` is
`search?q=a%20b&limit=10`. -/
theorem c6_query_string (lb rb : Nat) (ls n₁ n₂ : JSString) (ns : List JSString)
    (params : Params) (hls : ls ≠ []) (hl : ∀ x ∈ ls, isLetter x = true)
    (hns : ∀ n ∈ n₁ :: n₂ :: ns, n ≠ [] ∧ ∀ x ∈ n, isAlnum x = true) :
    (∀ rest path queryPath,
        makeURLLoop params
            (querySegment (namePortion lb rb ls) (n₁ :: n₂ :: ns) :: rest) path queryPath =
          match parseURLComponent (namePortion lb rb ls) params with
          | .error e => .error e
          | .ok seg =>
            match mapExcept (queryPair params) (n₁ :: n₂ :: ns) with
            | .error e => .error e
            | .ok pairs => makeURLLoop params rest (path ++ [seg]) pairs) ∧
      (∀ values, mapExcept (fun n => encodeURIComponent (params.get n)) (n₁ :: n₂ :: ns) =
          .ok values →
        mapExcept (queryPair params) (n₁ :: n₂ :: ns) =
          .ok (List.zipWith (fun n v => n ++ js "=" ++ v) (n₁ :: n₂ :: ns) values)) ∧
      (∀ before after path queryPath seg pairs segs,
        (∀ c ∈ before ++ after, 0x2F ∉ c) →
        makeURLLoop params before [] [] = .ok (path, queryPath) →
        parseURLComponent (namePortion lb rb ls) params = .ok seg →
        mapExcept (queryPair params) (n₁ :: n₂ :: ns) = .ok pairs →
        (∀ c ∈ after, queryComponentPattern.test c = false) →
        mapExcept (fun c => parseURLComponent c params) after = .ok segs →
        makeURL (join (js "/")
            (before ++ querySegment (namePortion lb rb ls) (n₁ :: n₂ :: ns) :: after)) params =
          .ok (join (js "/") (path ++ [seg] ++ segs) ++ js "?" ++ join (js "&") pairs)) ∧
      makeURL (js "search?\x7bq,limit\x7d") [(js "q", .str (js "a b")), (js "limit", .str (js "10"))] =
        .ok (js "search?q=a%20b&limit=10") := by
  have hexec : ∃ m, queryComponentPattern.exec
      (querySegment (namePortion lb rb ls) (n₁ :: n₂ :: ns)) = some m ∧
      capture m 1 = some (namePortion lb rb ls) ∧
      capture m 2 = some (join (js ",") (n₁ :: n₂ :: ns)) :=
    queryComponentPattern_exec_query lb rb ls n₁ n₂ ns hls hl hns
  have hsplit : split 0x2C (join (js ",") (n₁ :: n₂ :: ns)) = n₁ :: n₂ :: ns :=
    split_join 0x2C _ (by simp)
      (fun n hn hmem => (isAlnum_ne ((hns n hn).2 _ hmem)).1 rfl)
  have hstep : ∀ rest path queryPath,
      makeURLLoop params
          (querySegment (namePortion lb rb ls) (n₁ :: n₂ :: ns) :: rest) path queryPath =
        match parseURLComponent (namePortion lb rb ls) params with
        | .error e => .error e
        | .ok seg =>
          match mapExcept (queryPair params) (n₁ :: n₂ :: ns) with
          | .error e => .error e
          | .ok pairs => makeURLLoop params rest (path ++ [seg]) pairs := by
    intro rest path queryPath
    rw [makeURLLoop_query_step params _ (namePortion lb rb ls) (join (js ",") (n₁ :: n₂ :: ns))
      rest path queryPath hexec, hsplit]
  refine ⟨hstep, mapExcept_queryPair params _, ?_, by decide⟩
  intro before after path queryPath seg pairs segs hslash hbefore hseg hpairs hafter hsegs
  have hcomps : split 0x2F (join (js "/")
      (before ++ querySegment (namePortion lb rb ls) (n₁ :: n₂ :: ns) :: after)) =
      before ++ querySegment (namePortion lb rb ls) (n₁ :: n₂ :: ns) :: after := by
    apply split_join 0x2F _ (by simp)
    intro c hc
    simp only [List.mem_append, List.mem_cons] at hc
    rcases hc with hc | hc | hc
    · exact hslash c (by simp [hc])
    · rw [hc]
      exact querySegment_no_slash lb rb ls _ hl (fun n hn => (hns n hn).2)
    · exact hslash c (by simp [hc])
  unfold makeURL makeURLParts
  rw [hcomps, makeURLLoop_append, hbefore]
  simp only
  rw [hstep, hseg]
  simp only
  rw [hpairs]
  simp only
  rw [makeURLLoop_plain params _ _ _ hafter, hsegs]
  simp [join]

theorem c6_query_string_witness :
    makeURL (join (js "/")
        ([js "api"] ++ querySegment (namePortion 0 0 (js "search")) [js "q", js "limit"] ::
          [js "all"]))
        [(js "q", .str (js "a b")), (js "limit", .str (js "10"))] =
      .ok (js "api/search/all?q=a%20b&limit=10") :=
  (c6_query_string 0 0 (js "search") (js "q") (js "limit") []
    [(js "q", .str (js "a b")), (js "limit", .str (js "10"))] (by decide) (by decide)
    (by decide)).2.2.1 [js "api"] [js "all"] [js "api"] [] (js "search")
    [js "q=a%20b", js "limit=10"] [js "all"] (by decide) (by decide) (by decide) (by decide)
    (by decide) (by decide)

/-- C7: for every route whose segments consist only of code units that
`encodeURIComponent` leaves unchanged, and for every parameter object, the path array of
`makeURL` joined by a slash is the route itself, the query is empty and `makeURL` returns
the route followed by `?`. -/
theorem c7_literal_route (route : JSString) (params : Params)
    (h : ∀ x ∈ route, isUnreserved x = true ∨ x = 0x2F) :
    (∃ path, makeURLParts route params = .ok (path, []) ∧ join (js "/") path = route) ∧
      makeURL route params = .ok (route ++ js "?") := by
  have hcomp : ∀ c ∈ split 0x2F route, ∀ x ∈ c, isUnreserved x = true := by
    intro c hc x hx
    obtain ⟨hmem, hne⟩ := split_mem hc hx
    rcases h x hmem with hu | hs
    · exact hu
    · exact absurd hs hne
  have hparts : makeURLParts route params = .ok (split 0x2F route, []) := by
    unfold makeURLParts
    rw [makeURLLoop_plain params _ _ _ (fun c hc => (unreserved_component (hcomp c hc)).1),
      mapExcept_literal params _ hcomp]
    rfl
  have hjoin : join (js "/") (split 0x2F route) = route := join_split 0x2F route
  refine ⟨⟨_, hparts, hjoin⟩, ?_⟩
  unfold makeURL
  rw [hparts]
  simp only [hjoin, join]
  simp [js, jsChars, utf16]

theorem c7_literal_route_witness :
    (∃ path, makeURLParts (js "users/list") [(js "id", .str (js "42"))] = .ok (path, []) ∧
        join (js "/") path = js "users/list") ∧
      makeURL (js "users/list") [(js "id", .str (js "42"))] = .ok (js "users/list" ++ js "?") :=
  c7_literal_route (js "users/list") [(js "id", .str (js "42"))] (by decide)

/-- C8: whenever `makeURL` succeeds, its result is the joined path, a question mark and
the joined query, also when the query is empty; for a route with no query-bearing segment
the query is empty and the result is the joined path followed by `?`. -/
theorem c8_result_shape (route : JSString) (params : Params) (url : JSString)
    (h : makeURL route params = .ok url) :
    ∃ path queryPath, makeURLParts route params = .ok (path, queryPath) ∧
      url = join (js "/") path ++ js "?" ++ join (js "&") queryPath ∧
      ((∀ c ∈ split 0x2F route, queryComponentPattern.test c = false) →
        queryPath = [] ∧ url = join (js "/") path ++ js "?") := by
  unfold makeURL at h
  cases hparts : makeURLParts route params with
  | error e => simp [hparts] at h
  | ok r =>
    obtain ⟨path, queryPath⟩ := r
    simp only [hparts, Except.ok.injEq] at h
    refine ⟨path, queryPath, rfl, ?_, ?_⟩
    · rw [← h]
      simp [join]
    · intro hplain
      unfold makeURLParts at hparts
      rw [makeURLLoop_plain params _ _ _ hplain] at hparts
      cases hm : mapExcept (fun c => parseURLComponent c params) (split 0x2F route) with
      | error e => simp [hm] at hparts
      | ok segs =>
        simp only [hm, Except.ok.injEq, Prod.mk.injEq] at hparts
        obtain ⟨-, hq⟩ := hparts
        subst hq
        refine ⟨rfl, ?_⟩
        rw [← h]
        simp [join]

theorem c8_result_shape_witness :
    makeURL (js "users/list") [] = .ok (js "users/list?") ∧
      ∃ path, makeURLParts (js "users/list") [] = .ok (path, []) ∧
        js "users/list?" = join (js "/") path ++ js "?" := by
  obtain ⟨path, queryPath, hp, -, hplain⟩ :=
    c8_result_shape (js "users/list") [] (js "users/list?") (by decide)
  obtain ⟨hq, hu⟩ := hplain (by decide)
  subst hq
  exact ⟨by decide, path, hp, hu⟩

/-- C9: every value that `makeURL` places into a named path segment or into a query value
has gone through `encodeURIComponent`, and the piece it yields contains no raw space,
ampersand, slash or question mark; the value `a b&c/d?e` appears as `a%20b%26c%2Fd%3Fe`. -/
theorem c9_values_percent_encoded (params : Params) :
    (∀ component seg, componentPattern.test component = true →
        parseURLComponent component params = .ok seg →
        (∃ m v, componentPattern.exec component = some m ∧
          params.get (captureKey m 1) = .str v ∧ encodeURIComponent (.str v) = .ok seg) ∧
        ∀ c ∈ seg, c ≠ 0x20 ∧ c ≠ 0x26 ∧ c ≠ 0x2F ∧ c ≠ 0x3F) ∧
      (∀ queryParam pair, queryPair params queryParam = .ok pair →
        ∃ value, encodeURIComponent (params.get queryParam) = .ok value ∧
          pair = queryParam ++ js "=" ++ value ∧
          ∀ c ∈ value, c ≠ 0x20 ∧ c ≠ 0x26 ∧ c ≠ 0x2F ∧ c ≠ 0x3F) ∧
      encodeURIComponent (.str (js "a b&c/d?e")) = .ok (js "a%20b%26c%2Fd%3Fe") := by
  refine ⟨?_, ?_, by decide⟩
  · intro component seg htest hseg
    rw [parseURLComponent_eq, if_pos htest] at hseg
    cases hm : componentPattern.exec component with
    | none => simp [hm] at hseg
    | some m =>
      simp only [hm] at hseg
      cases hv : params.get (captureKey m 1) with
      | str v =>
        simp only [hv] at hseg
        exact ⟨⟨m, v, rfl, hv, hseg⟩, fun c hc =>
          encoded_not_reserved (encodeURIComponentStr_encoded _ v seg (Nat.le_refl _) hseg c hc)⟩
      | undefined => simp [hv] at hseg
      | null => simp [hv] at hseg
      | bool b => simp [hv] at hseg
      | arr vs => simp [hv] at hseg
      | other t => simp [hv] at hseg
  · intro queryParam pair hpair
    unfold queryPair at hpair
    cases hv : encodeURIComponent (params.get queryParam) with
    | error e => simp [hv] at hpair
    | ok value =>
      simp only [hv, Except.ok.injEq] at hpair
      exact ⟨value, rfl, hpair.symm, fun c hc =>
        encoded_not_reserved (encodeURIComponentStr_encoded _ _ value (Nat.le_refl _) hv c hc)⟩

theorem c9_values_percent_encoded_witness :
    (∀ c ∈ js "a%20b%26c%2Fd%3Fe", c ≠ 0x20 ∧ c ≠ 0x26 ∧ c ≠ 0x2F ∧ c ≠ 0x3F) ∧
      ∃ value, encodeURIComponent
          (Params.get [(js "q", .str (js "a b&c/d?e"))] (js "q")) = .ok value ∧
        js "q=a%20b%26c%2Fd%3Fe" = js "q" ++ js "=" ++ value ∧
        ∀ c ∈ value, c ≠ 0x20 ∧ c ≠ 0x26 ∧ c ≠ 0x2F ∧ c ≠ 0x3F :=
  have h := c9_values_percent_encoded [(js "q", .str (js "a b&c/d?e"))]
  ⟨(h.1 (js "[q]") (js "a%20b%26c%2Fd%3Fe") (by decide) (by decide)).2,
    h.2.1 (js "q") (js "q=a%20b%26c%2Fd%3Fe") (by decide)⟩

/-- C11: when the transport has resolved with status 200 or 304, the MIME type is the
content type cut before its first semicolon; if it equals `application/json` the call
resolves with the flattened headers and the JSON-decoded body (and rejects with the
rejection of the decoder when there is one), and otherwise, also without a content type,
it resolves with the flattened headers and an undefined body. The flattened headers map
every name other than `__proto__` to its last value. -/
theorem c11_body_decoding {β : Type} (P : Platform β) (method route : JSString)
    (params : Params) (headers : Option Headers) (body : Option β) (b : Option JSString)
    (url : JSString) (res : Response β) (hbody : initBody P body = .ok b)
    (hurl : makeURL route params = .ok url)
    (hres : P.fetch (requestURL P.apiURL url) ⟨method, js "same-origin", headers, b⟩ = .ok res)
    (hstatus : res.status = 200 ∨ res.status = 304) :
    (∀ contentType, parseMimeType (some contentType) =
        some (contentType.takeWhile (· ≠ 0x3B))) ∧
      parseMimeType none = none ∧
      (parseMimeType (res.headers.get (js "content-type")) = some (js "application/json") →
        (∀ decoded, res.json = .ok decoded →
          (clientFetch P method route params headers body).2 =
            .ok ⟨parseHeaders res.headers, some decoded⟩) ∧
        (∀ reason, res.json = .error reason →
          (clientFetch P method route params headers body).2 = .error (.rejected reason))) ∧
      (parseMimeType (res.headers.get (js "content-type")) ≠ some (js "application/json") →
        (clientFetch P method route params headers body).2 =
          .ok ⟨parseHeaders res.headers, none⟩) ∧
      (∀ reply, (clientFetch P method route params headers body).2 = .ok reply →
        reply.headers = parseHeaders res.headers ∧
        (reply.body = none ↔
          parseMimeType (res.headers.get (js "content-type")) ≠ some (js "application/json"))) ∧
      (∀ name, name ≠ js "__proto__" →
        Headers.get (parseHeaders res.headers) name = Headers.get res.headers.reverse name) := by
  rw [clientFetch_response P method route params headers body b url res hbody hurl hres]
  simp only
  rw [handleResponse_ok res hstatus]
  refine ⟨parseMimeType_some, rfl, ?_, ?_, ?_, ?_⟩
  · intro hm
    rw [if_pos hm]
    exact ⟨fun decoded hd => by rw [hd], fun reason hr => by rw [hr]⟩
  · intro hm
    rw [if_neg hm]
  · intro reply hreply
    by_cases hm : parseMimeType (res.headers.get (js "content-type")) =
        some (js "application/json")
    · rw [if_pos hm] at hreply
      cases hj : res.json with
      | error reason => simp [hj] at hreply
      | ok decoded =>
        simp only [hj, Except.ok.injEq] at hreply
        subst hreply
        simp [hm]
    · rw [if_neg hm] at hreply
      simp only [Except.ok.injEq] at hreply
      subst hreply
      simp [hm]
  · intro name hname
    have := get_foldl_setProperty name hname res.headers []
    simp only [Headers.get] at this
    rw [parseHeaders, this]
    cases Headers.get res.headers.reverse name <;> rfl

theorem c11_body_decoding_witness :
    (clientFetch
        (⟨none, fun _ => .ok none,
          fun _ _ => .ok ⟨304, [], js "", .error (js "SyntaxError")⟩⟩ : Platform Unit)
        (js "GET") (js "users/list") [] none none).2 = .ok ⟨parseHeaders [], none⟩ ∧
      (clientFetch
        (⟨none, fun _ => .ok none,
          fun _ _ => .ok ⟨200, [(js "content-type", js "application/json; charset=utf-8")],
            js "null", .ok ()⟩⟩ : Platform Unit)
        (js "GET") (js "users/list") [] none none).2 =
        .ok ⟨parseHeaders [(js "content-type", js "application/json; charset=utf-8")],
          some ()⟩ :=
  ⟨(c11_body_decoding
      (⟨none, fun _ => .ok none,
        fun _ _ => .ok ⟨304, [], js "", .error (js "SyntaxError")⟩⟩ : Platform Unit)
      (js "GET") (js "users/list") [] none none none (js "users/list?")
      ⟨304, [], js "", .error (js "SyntaxError")⟩ rfl (by decide) rfl (Or.inr rfl)).2.2.2.1
      (by decide),
    ((c11_body_decoding
      (⟨none, fun _ => .ok none,
        fun _ _ => .ok ⟨200, [(js "content-type", js "application/json; charset=utf-8")],
          js "null", .ok ()⟩⟩ : Platform Unit)
      (js "GET") (js "users/list") [] none none none (js "users/list?")
      ⟨200, [(js "content-type", js "application/json; charset=utf-8")], js "null", .ok ()⟩
      rfl (by decide) rfl (Or.inl rfl)).2.2.1 (by decide)).1 () rfl⟩

/-- C12 (the code departs from the claim): with a base URL configured, the URL passed to the
transport is the base URL alone and the resolved path and query are dropped, because in
`process.env.API_URL || '' + url` the concatenation binds tighter than the disjunction.
With `API_URL` set to `https://api.example.com/` and the route `users/list` the transport
is called with `https://api.example.com/`, not with
`https://api.example.com/users/list?`. Only without a base URL, or with an empty one, is
the resolved URL passed. -/
theorem c12_base_url_drops_path :
    (clientFetch
        (⟨some (js "https://api.example.com/"), fun _ => .ok none,
          fun _ _ => .ok ⟨200, [], js "", .ok ()⟩⟩ : Platform Unit)
        (js "GET") (js "users/list") [] none none).1 =
        [(js "https://api.example.com/", ⟨js "GET", js "same-origin", none, none⟩)] ∧
      makeURL (js "users/list") [] = .ok (js "users/list?") ∧
      js "https://api.example.com/" ≠ js "https://api.example.com/" ++ js "users/list?" ∧
      (∀ base url, base ≠ [] → requestURL (some base) url = base) ∧
      (∀ url, requestURL none url = url ∧ requestURL (some []) url = url) := by
  refine ⟨by decide, by decide, by decide, ?_, ?_⟩
  · intro base url hbase
    simp [requestURL, hbase]
  · intro url
    exact ⟨rfl, rfl⟩

/-- C13 (counterexample): with a body that `JSON.stringify` rejects, such as a BigInt, and a
route on which `makeURL` fails, `clientFetch` fails with the exception of `JSON.stringify`
and not with the error of `makeURL`: the body is serialised before the URL is built. -/
theorem c13_stringify_error_comes_first :
    makeURL (js "users/[id]") [] = .error (.error (js "Invalid URL parameter: id")) ∧
      clientFetch
        (⟨none, fun _ => .error (js "TypeError"),
          fun _ _ => .ok ⟨200, [], js "", .ok ()⟩⟩ : Platform Unit)
        (js "POST") (js "users/[id]") [] none (some ()) =
        ([], .error (.rejected (js "TypeError"))) :=
  ⟨by decide, rfl⟩

/-- C13 (amended): whenever `makeURL` fails on the route and the parameters, `clientFetch`
fails and the transport is never invoked, also through `makeMethod`; the error is the one
of `makeURL`, unless `JSON.stringify(body)` has thrown before, in which case it is that
exception. -/
theorem c13_no_request_without_url {β : Type} (P : Platform β) (method route : JSString)
    (params : Params) (headers : Option Headers) (body : Option β) (e : JSError)
    (h : makeURL route params = .error e) :
    (clientFetch P method route params headers body).1 = [] ∧
      (makeMethod P method route params headers body).1 = [] ∧
      (∀ reply, (clientFetch P method route params headers body).2 ≠ .ok reply) ∧
      (body = none → (clientFetch P method route params headers body).2 = .error e) ∧
      (∀ b, initBody P body = .ok b →
        (clientFetch P method route params headers body).2 = .error e) ∧
      (∀ e', initBody P body = .error e' →
        (clientFetch P method route params headers body).2 = .error e') := by
  have hcases : clientFetch P method route params headers body =
      match initBody P body with
      | .error e' => ([], .error e')
      | .ok _ => ([], .error e) := by
    simp only [clientFetch, h]
  rw [makeMethod, hcases]
  refine ⟨?_, ?_, ?_, ?_, ?_, ?_⟩
  · cases initBody P body <;> rfl
  · cases initBody P body <;> rfl
  · intro reply
    cases initBody P body <;> simp
  · intro hb
    subst hb
    rfl
  · intro b hb
    rw [hb]
  · intro e' hb
    rw [hb]

theorem c13_no_request_without_url_witness :
    clientFetch
        (⟨none, fun _ => .ok (some (js "null")),
          fun _ _ => .ok ⟨200, [], js "", .ok ()⟩⟩ : Platform Unit)
        (js "POST") (js "users/[id]") [] none (some ()) =
      ([], .error (.error (js "Invalid URL parameter: id"))) := by
  have h := c13_no_request_without_url
    (⟨none, fun _ => .ok (some (js "null")),
      fun _ _ => .ok ⟨200, [], js "", .ok ()⟩⟩ : Platform Unit)
    (js "POST") (js "users/[id]") [] none (some ())
    (.error (js "Invalid URL parameter: id")) (by decide)
  exact Prod.ext h.1 (h.2.2.2.2.1 (some (js "null")) rfl)

/-- C14: a query-bearing segment overwrites the query gathered so far and appends its name
portion to the path, as every segment appends one element to the path. So when a route has
several query-bearing segments, the query of the result is built from the brace list of
the last one only; `makeURL("a?{x,y}/b?{z,w}", {x:"1",y:"2",z:"3",w:"4"})` is
`a/b?z=3&w=4`. -/
theorem c14_last_query_wins (lb rb : Nat) (ls n₁ n₂ : JSString) (ns : List JSString)
    (params : Params) (hls : ls ≠ []) (hl : ∀ x ∈ ls, isLetter x = true)
    (hns : ∀ n ∈ n₁ :: n₂ :: ns, n ≠ [] ∧ ∀ x ∈ n, isAlnum x = true) :
    (∀ rest path queryPath,
        makeURLLoop params
            (querySegment (namePortion lb rb ls) (n₁ :: n₂ :: ns) :: rest) path queryPath =
          match parseURLComponent (namePortion lb rb ls) params with
          | .error e => .error e
          | .ok seg =>
            match mapExcept (queryPair params) (n₁ :: n₂ :: ns) with
            | .error e => .error e
            | .ok pairs => makeURLLoop params rest (path ++ [seg]) pairs) ∧
      (∀ comps path queryPath path' queryPath',
        makeURLLoop params comps path queryPath = .ok (path', queryPath') →
        ∃ ext, path' = path ++ ext ∧ ext.length = comps.length) ∧
      (∀ before after path queryPath seg pairs segs,
        (∀ c ∈ before ++ after, 0x2F ∉ c) →
        makeURLLoop params before [] [] = .ok (path, queryPath) →
        parseURLComponent (namePortion lb rb ls) params = .ok seg →
        mapExcept (queryPair params) (n₁ :: n₂ :: ns) = .ok pairs →
        (∀ c ∈ after, queryComponentPattern.test c = false) →
        mapExcept (fun c => parseURLComponent c params) after = .ok segs →
        makeURLParts (join (js "/")
            (before ++ querySegment (namePortion lb rb ls) (n₁ :: n₂ :: ns) :: after)) params =
          .ok (path ++ [seg] ++ segs, pairs)) ∧
      makeURLParts (js "a?\x7bx,y\x7d/b?\x7bz,w\x7d")
          [(js "x", .str (js "1")), (js "y", .str (js "2")), (js "z", .str (js "3")),
            (js "w", .str (js "4"))] = .ok ([js "a", js "b"], [js "z=3", js "w=4"]) ∧
      makeURL (js "a?\x7bx,y\x7d/b?\x7bz,w\x7d")
          [(js "x", .str (js "1")), (js "y", .str (js "2")), (js "z", .str (js "3")),
            (js "w", .str (js "4"))] = .ok (js "a/b?z=3&w=4") := by
  have hstep := makeURLLoop_querySegment lb rb ls n₁ n₂ ns params hls hl hns
  refine ⟨hstep, makeURLLoop_path_length params, ?_, by decide, by decide⟩
  intro before after path queryPath seg pairs segs hslash hbefore hseg hpairs hafter hsegs
  have hcomps : split 0x2F (join (js "/")
      (before ++ querySegment (namePortion lb rb ls) (n₁ :: n₂ :: ns) :: after)) =
      before ++ querySegment (namePortion lb rb ls) (n₁ :: n₂ :: ns) :: after := by
    apply split_join 0x2F _ (by simp)
    intro c hc
    simp only [List.mem_append, List.mem_cons] at hc
    rcases hc with hc | hc | hc
    · exact hslash c (by simp [hc])
    · rw [hc]
      exact querySegment_no_slash lb rb ls _ hl (fun n hn => (hns n hn).2)
    · exact hslash c (by simp [hc])
  unfold makeURLParts
  rw [hcomps, makeURLLoop_append, hbefore]
  simp only
  rw [hstep, hseg]
  simp only
  rw [hpairs]
  simp only
  rw [makeURLLoop_plain params _ _ _ hafter, hsegs]

theorem c14_last_query_wins_witness :
    makeURLParts (join (js "/")
        ([querySegment (js "a") [js "x", js "y"], js "c"] ++
          querySegment (namePortion 0 0 (js "b")) [js "z", js "w"] :: [js "d"]))
        [(js "x", .str (js "1")), (js "y", .str (js "2")), (js "z", .str (js "3")),
          (js "w", .str (js "4"))] =
      .ok ([js "a", js "c"] ++ [js "b"] ++ [js "d"], [js "z=3", js "w=4"]) :=
  (c14_last_query_wins 0 0 (js "b") (js "z") (js "w") []
    [(js "x", .str (js "1")), (js "y", .str (js "2")), (js "z", .str (js "3")),
      (js "w", .str (js "4"))] (by decide) (by decide) (by decide)).2.2.1
    [querySegment (js "a") [js "x", js "y"], js "c"] [js "d"] [js "a", js "c"]
    [js "x=1", js "y=2"] (js "b") [js "z=3", js "w=4"] [js "d"]
    (by decide) (by decide) (by decide) (by decide) (by decide) (by decide)

/-- C15: the name portion of a query-bearing segment goes through `parseURLComponent`
like a stand-alone segment. For every non-empty name `n` made of letters, the segment
`[n]?{...}` appends `encodeURIComponent(params[n])` to the path when `params[n]` is a
string, and the segment `n?{...}` appends the literal `n`;
`makeURL("users/[id]?{a,b}", {id:"42", a:"1", b:"2"})` is `users/42?a=1&b=2`. -/
theorem c15_name_portion_rules (n n₁ n₂ : JSString) (ns : List JSString) (params : Params)
    (hne : n ≠ []) (hn : ∀ x ∈ n, isLetter x = true)
    (hns : ∀ m ∈ n₁ :: n₂ :: ns, m ≠ [] ∧ ∀ x ∈ m, isAlnum x = true) :
    (∀ v rest path queryPath, params.get n = .str v →
        makeURLLoop params
            (querySegment (0x5B :: (n ++ [0x5D])) (n₁ :: n₂ :: ns) :: rest) path queryPath =
          match encodeURIComponent (.str v) with
          | .error e => .error e
          | .ok seg =>
            match mapExcept (queryPair params) (n₁ :: n₂ :: ns) with
            | .error e => .error e
            | .ok pairs => makeURLLoop params rest (path ++ [seg]) pairs) ∧
      (∀ rest path queryPath,
        makeURLLoop params (querySegment n (n₁ :: n₂ :: ns) :: rest) path queryPath =
          match mapExcept (queryPair params) (n₁ :: n₂ :: ns) with
          | .error e => .error e
          | .ok pairs => makeURLLoop params rest (path ++ [n]) pairs) ∧
      (∀ lb rb rest path queryPath,
        makeURLLoop params
            (querySegment (namePortion lb rb n) (n₁ :: n₂ :: ns) :: rest) path queryPath =
          match parseURLComponent (namePortion lb rb n) params with
          | .error e => .error e
          | .ok seg =>
            match mapExcept (queryPair params) (n₁ :: n₂ :: ns) with
            | .error e => .error e
            | .ok pairs => makeURLLoop params rest (path ++ [seg]) pairs) ∧
      makeURL (js "users/[id]?\x7ba,b\x7d")
          [(js "id", .str (js "42")), (js "a", .str (js "1")), (js "b", .str (js "2"))] =
        .ok (js "users/42?a=1&b=2") := by
  have hbracket : namePortion 1 1 n = 0x5B :: (n ++ [0x5D]) := by
    simp [namePortion, List.replicate]
  have hplain : namePortion 0 0 n = n := by
    simp [namePortion, List.replicate]
  refine ⟨?_, ?_, ?_, by decide⟩
  · intro v rest path queryPath hv
    have h := makeURLLoop_querySegment 1 1 n n₁ n₂ ns params hne hn hns rest path queryPath
    rw [hbracket, parseURLComponent_bracket n params hne
      (fun x hx => isLetter_not_lineTerminator (hn x hx)), hv] at h
    exact h
  · intro rest path queryPath
    have h := makeURLLoop_querySegment 0 0 n n₁ n₂ ns params hne hn hns rest path queryPath
    rw [hplain, parseURLComponent_unreserved n params
      (fun x hx => isLetter_unreserved (hn x hx))] at h
    exact h
  · intro lb rb rest path queryPath
    exact makeURLLoop_querySegment lb rb n n₁ n₂ ns params hne hn hns rest path queryPath

theorem c15_name_portion_rules_witness :
    makeURLLoop [(js "id", .str (js "42")), (js "a", .str (js "1")), (js "b", .str (js "2"))]
        [querySegment (js "[id]") [js "a", js "b"], querySegment (js "id") [js "a", js "b"]]
        [js "users"] [] =
      .ok ([js "users", js "42", js "id"], [js "a=1", js "b=2"]) := by
  have h := c15_name_portion_rules (js "id") (js "a") (js "b") []
    [(js "id", .str (js "42")), (js "a", .str (js "1")), (js "b", .str (js "2"))]
    (by decide) (by decide) (by decide)
  have h₁ := h.1 (js "42") [querySegment (js "id") [js "a", js "b"]] [js "users"] []
    (by decide)
  have h₂ := h.2.1 [] ([js "users"] ++ [js "42"]) [js "a=1", js "b=2"]
  exact h₁.trans (h₂.trans (by decide))

/-- C16: a segment whose brace list has a single name is not query-bearing. For all
alphanumeric `s` and `q` the segment `s?{q}` fails the query pattern, is handled as a
literal, leaves the query as it was and enters the path with its question mark and braces
percent-encoded; `makeURL("search?{q}", {q: "x"})` is `search%3F%7Bq%7D?`. -/
theorem c16_single_name_is_literal (s q : JSString) (params : Params)
    (hs : ∀ x ∈ s, isAlnum x = true) (hq : ∀ x ∈ q, isAlnum x = true) :
    queryComponentPattern.test (querySegment s [q]) = false ∧
      parseURLComponent (querySegment s [q]) params =
        .ok (s ++ js "%3F%7B" ++ q ++ js "%7D") ∧
      (∀ rest path queryPath,
        makeURLLoop params (querySegment s [q] :: rest) path queryPath =
          makeURLLoop params rest (path ++ [s ++ js "%3F%7B" ++ q ++ js "%7D"]) queryPath) ∧
      makeURL (querySegment s [q]) params =
        .ok (s ++ js "%3F%7B" ++ q ++ js "%7D" ++ js "?") ∧
      makeURL (js "search?\x7bq\x7d") [(js "q", .str (js "x"))] =
        .ok (js "search%3F%7Bq%7D?") := by
  have hmem : ∀ x ∈ querySegment s [q], isAlnum x = true ∨ x = 0x3F ∨ x = 0x7B ∨ x = 0x7D := by
    intro x hx
    have h₁ : js "?\x7b" = [0x3F, 0x7B] := by decide
    have h₂ : js "\x7d" = [0x7D] := by decide
    simp only [querySegment, join, h₁, h₂, List.mem_append, List.mem_cons, List.mem_singleton,
      List.not_mem_nil, or_false] at hx
    rcases hx with ((hx | hx | hx) | hx) | hx
    · exact Or.inl (hs x hx)
    · exact Or.inr (Or.inl hx)
    · exact Or.inr (Or.inr (Or.inl hx))
    · exact Or.inl (hq x hx)
    · exact Or.inr (Or.inr (Or.inr hx))
  have hne : ∀ c : Nat, c = 0x2C ∨ c = 0x2F ∨ c = 0x5B → c ∉ querySegment s [q] := by
    intro c hc hmemc
    rcases hmem c hmemc with h | h | h | h
    · simp only [isAlnum, isLetter, Bool.or_eq_true, Bool.and_eq_true, decide_eq_true_eq] at h
      omega
    · omega
    · omega
    · omega
  have hquery : queryComponentPattern.test (querySegment s [q]) = false := by
    cases ht : queryComponentPattern.test (querySegment s [q]) with
    | false => rfl
    | true => exact absurd (queryComponentPattern_test_comma ht) (hne _ (Or.inl rfl))
  have hcomp : componentPattern.test (querySegment s [q]) = false := by
    cases ht : componentPattern.test (querySegment s [q]) with
    | false => rfl
    | true =>
      obtain ⟨xs, hxs⟩ := componentPattern_test_head ht
      exact absurd (by rw [hxs]; simp) (hne 0x5B (Or.inr (Or.inr rfl)))
  have hparse : parseURLComponent (querySegment s [q]) params =
      .ok (s ++ js "%3F%7B" ++ q ++ js "%7D") := by
    rw [parseURLComponent_literal _ _ hcomp, encode_single_name_segment s q hs hq]
  have hstep : ∀ rest path queryPath,
      makeURLLoop params (querySegment s [q] :: rest) path queryPath =
        makeURLLoop params rest (path ++ [s ++ js "%3F%7B" ++ q ++ js "%7D"]) queryPath := by
    intro rest path queryPath
    rw [makeURLLoop_plain_step _ _ _ _ _ hquery, hparse]
  refine ⟨hquery, hparse, hstep, ?_, by decide⟩
  unfold makeURL makeURLParts
  rw [split_no_sep (hne 0x2F (Or.inr (Or.inl rfl))), hstep]
  simp [makeURLLoop, join]

theorem c16_single_name_is_literal_witness :
    queryComponentPattern.test (js "search?\x7bq\x7d") = false ∧
      makeURL (js "search?\x7bq\x7d") [(js "q", .str (js "x"))] =
        .ok (js "search" ++ js "%3F%7B" ++ js "q" ++ js "%7D" ++ js "?") :=
  have h := c16_single_name_is_literal (js "search") (js "q") [(js "q", .str (js "x"))]
    (by decide) (by decide)
  ⟨h.1, h.2.2.2.1⟩

/-- C19: for every route and parameter object on which `makeURL` succeeds, the result
contains exactly one question mark; it splits into a path before it and a query after it,
neither of which contains a question mark, and the path has as many slashes as the route.
A value such as `a/b?c` enters the result only as `a%2Fb%3Fc`. -/
theorem c19_no_injection (route : JSString) (params : Params) (url : JSString)
    (h : makeURL route params = .ok url) :
    List.count 0x3F url = 1 ∧
      ∃ path query, url = path ++ js "?" ++ query ∧ 0x3F ∉ path ∧ 0x3F ∉ query ∧
        List.count 0x2F path = List.count 0x2F route := by
  obtain ⟨path, queryPath, hurl, hlen, hp, hq⟩ := makeURL_shape h
  have hpath : 0x3F ∉ join (js "/") path := by
    intro hmem
    rcases join_mem hmem with hsep | ⟨s, hs, hx⟩
    · revert hsep; decide
    · have := hp s hs _ hx
      simp [isEncoded, isUnreserved] at this
  have hquery : 0x3F ∉ join (js "&") queryPath := by
    intro hmem
    rcases join_mem hmem with hsep | ⟨p, hpm, hx⟩
    · revert hsep; decide
    · rcases hq p hpm _ hx with h' | h'
      · simp [isEncoded, isUnreserved] at h'
      · omega
  have hslash : ∀ s ∈ path, 0x2F ∉ s := by
    intro s hs hx
    have := hp s hs _ hx
    simp [isEncoded, isUnreserved] at this
  have hne : path ≠ [] := by
    intro hnil
    rw [hnil, length_split] at hlen
    simp at hlen
  have hcount := count_join 0x2F path hne hslash
  have hq1 : js "?" = [0x3F] := by decide
  refine ⟨?_, join (js "/") path, join (js "&") queryPath, hurl, hpath, hquery, ?_⟩
  · rw [hurl, hq1, List.count_append, List.count_append,
      List.count_eq_zero_of_not_mem hpath, List.count_eq_zero_of_not_mem hquery]
    rfl
  · have hs : js "/" = [0x2F] := by decide
    rw [hs]
    rw [length_split] at hlen
    omega

theorem c19_no_injection_witness :
    makeURL (js "users/[id]?\x7ba,b\x7d")
        [(js "id", .str (js "a/b?c")), (js "a", .str (js "x?y")), (js "b", .str (js "/"))] =
        .ok (js "users/a%2Fb%3Fc?a=x%3Fy&b=%2F") ∧
      List.count 0x3F (js "users/a%2Fb%3Fc?a=x%3Fy&b=%2F") = 1 ∧
      ∃ path query, js "users/a%2Fb%3Fc?a=x%3Fy&b=%2F" = path ++ js "?" ++ query ∧
        0x3F ∉ path ∧ 0x3F ∉ query ∧
        List.count 0x2F path = List.count 0x2F (js "users/[id]?\x7ba,b\x7d") :=
  have h := c19_no_injection (js "users/[id]?\x7ba,b\x7d")
    [(js "id", .str (js "a/b?c")), (js "a", .str (js "x?y")), (js "b", .str (js "/"))]
    (js "users/a%2Fb%3Fc?a=x%3Fy&b=%2F") (by decide)
  ⟨by decide, h.1, h.2⟩

end NextRest
